import Mathlib

/-!
# Verification of the Atlas pathfinding core (The-Waltz repository)

Shallow embedding of the terrain-constrained A* pathfinding scripts
(`atlas_pathfinding/pathfinder_v9.py` and
`archives/atlas_pathfinding/pathfinder*.py`) together with proofs of the
specified properties.

Numeric conventions of the embedding:
* Python integers are `ℤ` (or `ℕ` for sizes); Python float literals such as
  `1.5`/`0.5` are `ℚ` (they and their running sums are exactly representable
  as doubles in the ranges the scripts use, so the rational embedding is
  exact).
* Comparisons of the form `math.sqrt(n) < k` with `n`, `k` nonnegative are
  embedded as `n < k^2`: IEEE `sqrt` is correctly rounded and monotone, so
  the two tests agree on the integer ranges involved.
* Sample coordinates `int(x1 + (i/steps)*(x2-x1))` are embedded as
  `x1 + (i*(x2-x1)).fdiv steps`: for the in-bounds (nonnegative) endpoints
  the scripts use, truncation towards zero equals the floor, and the real
  value being floored is the exact rational `x1 + i*(x2-x1)/steps`.
-/

/-- Terrain categories used by `pathfinder_v5.py` / `pathfinder_v8.py` /
`pathfinder_v9.py` (module-level constants `SAND` … `END`). -/
inductive Terrain where
  | SAND
  | MOUNTAIN
  | RAMP
  | ABYSS
  | START
  | END
  deriving DecidableEq, Repr, Fintype

open Terrain

/-- `can_move` from `pathfinder_v5.py` (lines 59–90): Abyss forbidden on
either side; `START`/`END` renamed to `SAND`; same terrain allowed; `RAMP`
connects to anything; direct `SAND ↔ MOUNTAIN` forbidden; final
`return True` default. -/
def canMove (fromT toT : Terrain) : Bool :=
  if fromT = ABYSS ∨ toT = ABYSS then false
  else
    let f := if fromT = START ∨ fromT = END then SAND else fromT
    let t := if toT = START ∨ toT = END then SAND else toT
    if f = t then true
    else if f = RAMP ∨ t = RAMP then true
    else if (f = SAND ∧ t = MOUNTAIN) ∨ (f = MOUNTAIN ∧ t = SAND) then false
    else true

/-- `can_move` from `pathfinder_v8.py` (lines 42–55) and `pathfinder_v9.py`
(lines 65–78): same rules but the function ends with `return False` instead
of a default `return True`. -/
def canMoveV8 (fromT toT : Terrain) : Bool :=
  if fromT = ABYSS ∨ toT = ABYSS then false
  else
    let f := if fromT = START ∨ fromT = END then SAND else fromT
    let t := if toT = START ∨ toT = END then SAND else toT
    if f = t then true
    else if f = RAMP ∨ t = RAMP then true
    else false

/-- Transition Policy written from the ordered rule list of the claim
(spec §4.3): either side `Abyss` → forbidden; `Start`/`End` treated as
`Sand`; same category → allowed; either side `Ramp` → allowed; `Sand`
adjacent to `Mountain` (neither a ramp) → forbidden; any other
combination → allowed by default. -/
def canMoveRuleList (fromT toT : Terrain) : Bool :=
  if fromT = ABYSS ∨ toT = ABYSS then false
  else
    let f := if fromT = START then SAND else if fromT = END then SAND else fromT
    let t := if toT = START then SAND else if toT = END then SAND else toT
    if f = t then true
    else if f = RAMP ∨ t = RAMP then true
    else if (f = SAND ∧ t = MOUNTAIN) ∨ (f = MOUNTAIN ∧ t = SAND) then false
    else true

/-- `classify_pixel` from `pathfinder_v5.py` (lines 26–56); identical to the
versions in `pathfinder_v8.py` (lines 24–39) and `pathfinder_v9.py`
(lines 47–62).  `brightness = (r+g+b)/3` is kept as an exact rational. -/
def classifyPixel (r g b : ℤ) : Terrain :=
  if 200 < g ∧ r < 100 ∧ b < 100 then START
  else if 200 < r ∧ g < 100 ∧ b < 100 then END
  else if |r - g| < 20 ∧ |g - b| < 20 ∧ 100 ≤ r ∧ r ≤ 140 then RAMP
  else if r < 25 ∧ g < 25 ∧ b < 25 then ABYSS
  else if (110 : ℚ) < (r + g + b : ℤ) / 3 then SAND
  else if (25 : ℚ) < (r + g + b : ℤ) / 3 then MOUNTAIN
  else ABYSS

/-- The classifier written from the claim's wording (spec §4.1 decision
order): Start (green-dominant bright), End (red-dominant bright), Ramp
(near-equal channels in the mid-brightness band), Abyss (all channels below
the low threshold), then brightness bucketing — brighter is Sand, moderately
dark is Mountain, anything else Abyss. -/
def classifyDecisionOrder (r g b : ℤ) : Terrain :=
  if 200 < g ∧ r < 100 ∧ b < 100 then START
  else if 200 < r ∧ g < 100 ∧ b < 100 then END
  else if |r - g| < 20 ∧ |g - b| < 20 ∧ 100 ≤ r ∧ r ≤ 140 then RAMP
  else if r < 25 ∧ g < 25 ∧ b < 25 then ABYSS
  else
    let brightness : ℚ := (r + g + b : ℤ) / 3
    if 110 < brightness then SAND
    else if 25 < brightness then MOUNTAIN
    else ABYSS

/-- Terrain labels produced by the early `pathfinder.py` classifier,
including the `'GRAY'` and `'UNKNOWN'` strings it can return. -/
inductive TerrainV1 where
  | RAMP
  | SAND
  | MOUNTAIN
  | ABYSS
  | TIGHT
  | ROAD
  | WATER
  | START
  | END
  | GRAY
  | UNKNOWN
  deriving DecidableEq, Repr

/-- `TERRAIN_COLORS` from `pathfinder.py` (lines 15–23), in dict insertion
order. -/
def terrainColorsV1 : List (TerrainV1 × (ℤ × ℤ × ℤ)) :=
  [(TerrainV1.RAMP, (183, 156, 168)),
   (TerrainV1.SAND, (149, 106, 80)),
   (TerrainV1.MOUNTAIN, (97, 88, 0)),
   (TerrainV1.ABYSS, (0, 0, 0)),
   (TerrainV1.TIGHT, (0, 205, 43)),
   (TerrainV1.ROAD, (255, 0, 0)),
   (TerrainV1.WATER, (0, 0, 200))]

/-- Squared Euclidean distance between two RGB colors.  `color_distance` in
`pathfinder.py` takes the square root; every comparison made on those
distances (`dist < min_dist`, `min_dist < 50`) is embedded on the squares,
which is exact because correctly-rounded `sqrt` on the integer range
`0 … 3·255²` is strictly monotone. -/
def colorDistSq (c1 c2 : ℤ × ℤ × ℤ) : ℤ :=
  (c1.1 - c2.1) ^ 2 + (c1.2.1 - c2.2.1) ^ 2 + (c1.2.2 - c2.2.2) ^ 2

/-- The closest-terrain fold of `classify_pixel` in `pathfinder.py`
(lines 74–82): `min_dist` starts at infinity (here `none`), each strictly
closer color updates it. -/
def closestTerrainV1 (rgb : ℤ × ℤ × ℤ) :
    List (TerrainV1 × (ℤ × ℤ × ℤ)) → Option ℤ × TerrainV1 → Option ℤ × TerrainV1
  | [], acc => acc
  | (t, c) :: rest, (minD, closest) =>
    let d := colorDistSq rgb c
    let upd : Bool := match minD with
      | none => true
      | some m => d < m
    if upd then closestTerrainV1 rgb rest (some d, t)
    else closestTerrainV1 rgb rest (minD, closest)

/-- `classify_pixel` from `pathfinder.py` (lines 54–88): start/end marker
rules, gray-marker rule with tolerance 30 and band `100 < r < 180`, abyss
threshold 20, then nearest `TERRAIN_COLORS` entry if its distance is below
50 (`50² = 2500` on squares), otherwise `'UNKNOWN'`. -/
def classifyPixelV1 (r g b : ℤ) : TerrainV1 :=
  if 200 < g ∧ r < 100 ∧ b < 100 then TerrainV1.START
  else if 200 < r ∧ g < 100 ∧ b < 100 then TerrainV1.END
  else if |r - g| < 30 ∧ |g - b| < 30 ∧ 100 < r ∧ r < 180 then TerrainV1.GRAY
  else if r < 20 ∧ g < 20 ∧ b < 20 then TerrainV1.ABYSS
  else
    match closestTerrainV1 (r, g, b) terrainColorsV1 (none, TerrainV1.UNKNOWN) with
    | (some m, closest) => if m < 2500 then closest else TerrainV1.UNKNOWN
    | (none, _) => TerrainV1.UNKNOWN

/-- Integer coordinate pair `(x, y)`, the graph-search node identity. -/
abbrev Pos : Type := ℤ × ℤ

/-- Terrain grid: the classified `terrain_map` numpy array with its shape.
`tile x y` is the access `terrain_map[y, x]`. -/
structure TerrainMap where
  width : ℕ
  height : ℕ
  tile : ℤ → ℤ → Terrain

/-- Bounds test `0 <= x < width and 0 <= y < height`. -/
def posInB (w h : ℕ) (p : Pos) : Prop :=
  0 ≤ p.1 ∧ p.1 < (w : ℤ) ∧ 0 ≤ p.2 ∧ p.2 < (h : ℤ)

instance (w h : ℕ) (p : Pos) : Decidable (posInB w h p) := by
  unfold posInB; infer_instance

/-- `steps = max(dx, dy, 1)` with `dx = abs(x2-x1)`, `dy = abs(y2-y1)`
(`check_line_valid` in `pathfinder_v5.py`/`pathfinder_v9.py`, `line_cost`
in `pathfinder_v3.py`). -/
def lineSteps (x1 y1 x2 y2 : ℤ) : ℕ :=
  max (x2 - x1).natAbs (max (y2 - y1).natAbs 1)

/-- One interpolated coordinate `int(a + (i/n)*(b - a))`; exact floor-based
embedding of the float interpolation (see the header comment). -/
def sampleCoord (a b : ℤ) (i n : ℕ) : ℤ :=
  a + ((i : ℤ) * (b - a)).fdiv (n : ℤ)

/-- The sample points `(int(x1+t*(x2-x1)), int(y1+t*(y2-y1)))` for
`t = i/n`, `i = 0 … n`. -/
def samplePoints (x1 y1 x2 y2 : ℤ) (n : ℕ) : List Pos :=
  (List.range (n + 1)).map fun i => (sampleCoord x1 x2 i n, sampleCoord y1 y2 i n)

/-- Per-tile cost used by `check_line_valid` in `pathfinder_v5.py`
(lines 199–205): `MOUNTAIN` costs 1.5, `RAMP` 0.5, anything else 1. -/
def tileCost : Terrain → ℚ
  | MOUNTAIN => 3 / 2
  | RAMP => 1 / 2
  | _ => 1

/-- Loop body of `check_line_valid` (`pathfinder_v5.py` lines 188–207):
walks the sample points, skipping out-of-bounds samples, threading the
previous in-bounds terrain and the accumulated cost; `none` stands for the
`(False, inf)` early return, `some total` for `(True, total_cost)`. -/
def clvGo (tm : TerrainMap) : List Pos → Terrain → ℚ → Option ℚ
  | [], _, total => some total
  | p :: rest, prev, total =>
    if posInB tm.width tm.height p then
      let cur := tm.tile p.1 p.2
      if canMove prev cur then clvGo tm rest cur (total + tileCost cur) else none
    else clvGo tm rest prev total

/-- `check_line_valid` from `pathfinder_v5.py` (lines 178–209). -/
def checkLineValid (tm : TerrainMap) (x1 y1 x2 y2 : ℤ) : Option ℚ :=
  clvGo tm (samplePoints x1 y1 x2 y2 (lineSteps x1 y1 x2 y2)) (tm.tile x1 y1) 0

/-- Loop body of the cost-free `check_line_valid` of `pathfinder_v9.py`
(lines 122–132). -/
def clvGoB (tm : TerrainMap) : List Pos → Terrain → Bool
  | [], _ => true
  | p :: rest, prev =>
    if posInB tm.width tm.height p then
      let cur := tm.tile p.1 p.2
      if canMoveV8 prev cur then clvGoB tm rest cur else false
    else clvGoB tm rest prev

/-- `check_line_valid` from `pathfinder_v9.py` (lines 114–132): validity
only, using the v9 `can_move`. -/
def checkLineValidV9 (tm : TerrainMap) (x1 y1 x2 y2 : ℤ) : Bool :=
  clvGoB tm (samplePoints x1 y1 x2 y2 (lineSteps x1 y1 x2 y2)) (tm.tile x1 y1)

/-- Cost grid of `pathfinder_v2.py`/`pathfinder_v3.py`: per-tile traversal
costs, `⊤` for `float('inf')` (impassable). -/
structure CostMap where
  width : ℕ
  height : ℕ
  cost : ℤ → ℤ → WithTop ℚ

/-- Loop body shared by `get_path_cost` (`pathfinder_v2.py` lines 141–151)
and `line_cost` (`pathfinder_v3.py` lines 117–125): max of the in-bounds
sampled costs, early `inf` on an infinite tile. -/
def maxCostGo (cm : CostMap) : List Pos → WithTop ℚ → WithTop ℚ
  | [], acc => acc
  | p :: rest, acc =>
    if posInB cm.width cm.height p then
      let c := cm.cost p.1 p.2
      if c = ⊤ then ⊤ else maxCostGo cm rest (max acc c)
    else maxCostGo cm rest acc

/-- `get_path_cost` from `pathfinder_v2.py` (lines 129–152): `dist = 0`
short-circuits to the destination tile's cost; otherwise
`samples = max(3, dist // 2)` interpolated points are scanned. -/
def getPathCostV2 (cm : CostMap) (x1 y1 x2 y2 : ℤ) : WithTop ℚ :=
  let dist := max (x2 - x1).natAbs (y2 - y1).natAbs
  if dist = 0 then cm.cost x2 y2
  else maxCostGo cm (samplePoints x1 y1 x2 y2 (max 3 (dist / 2))) 0

/-- `line_cost` from `pathfinder_v3.py` (lines 109–127): same scan over
`max(dx, dy, 1)` interpolation steps. -/
def lineCostV3 (cm : CostMap) (x1 y1 x2 y2 : ℤ) : WithTop ℚ :=
  maxCostGo cm (samplePoints x1 y1 x2 y2 (lineSteps x1 y1 x2 y2)) 0

/-- The sample points the v2 cost routine reads: the destination alone when
the two positions coincide, else its interpolated scan. -/
def samplePointsV2 (x1 y1 x2 y2 : ℤ) : List Pos :=
  let dist := max (x2 - x1).natAbs (y2 - y1).natAbs
  if dist = 0 then [(x2, y2)] else samplePoints x1 y1 x2 y2 (max 3 (dist / 2))

/-- Modelled from the spec's words (§4.3): "the maximum per-tile cost
sampled along that segment" — the fold of `max` over the costs of the
in-bounds sample points, starting from the loop's initial `max_cost = 0`. -/
def segMaxCostOn (cm : CostMap) (pts : List Pos) : WithTop ℚ :=
  ((pts.filter fun p => decide (posInB cm.width cm.height p)).map
    fun p => cm.cost p.1 p.2).foldl max 0

/-- Terrains of the in-bounds sample points of a segment on a terrain
grid. -/
def inBTiles (tm : TerrainMap) (x1 y1 x2 y2 : ℤ) : List Terrain :=
  ((samplePoints x1 y1 x2 y2 (lineSteps x1 y1 x2 y2)).filter
    fun p => decide (posInB tm.width tm.height p)).map fun p => tm.tile p.1 p.2

/-- Modelled from the spec's words (§4.3): the maximum per-tile cost of the
in-bounds sampled tiles under the v5 cost table. -/
def segMaxTileCost (tm : TerrainMap) (x1 y1 x2 y2 : ℤ) : ℚ :=
  ((inBTiles tm x1 y1 x2 y2).map tileCost).foldl max 0

/-- C3: `can_move` agrees with the ordered rule list of the Transition
Policy on all 36 ordered pairs of terrain categories, and the
`pathfinder_v8.py`/`pathfinder_v9.py` variant (which ends in
`return False`) computes the same table. -/
theorem canMove_eq_ruleList :
    ∀ a b : Terrain, canMove a b = canMoveRuleList a b ∧ canMoveV8 a b = canMove a b := by
  decide

lemma foldl_max_top (l : List (WithTop ℚ)) : l.foldl max ⊤ = ⊤ := by
  induction l with
  | nil => rfl
  | cons a l ih => simpa [max_eq_left le_top] using ih

lemma maxCostGo_eq (cm : CostMap) :
    ∀ (pts : List Pos) (acc : WithTop ℚ),
      maxCostGo cm pts acc =
        ((pts.filter fun p => decide (posInB cm.width cm.height p)).map
          fun p => cm.cost p.1 p.2).foldl max acc := by
  intro pts
  induction pts with
  | nil => intro acc; rfl
  | cons p rest ih =>
    intro acc
    by_cases hp : posInB cm.width cm.height p
    · by_cases hc : cm.cost p.1 p.2 = ⊤
      · simp [maxCostGo, hp, hc, List.filter_cons, foldl_max_top, max_eq_right le_top]
      · simp [maxCostGo, hp, hc, List.filter_cons, ih]
    · simp [maxCostGo, hp, List.filter_cons, ih]

lemma clvGo_isSome_iff (tm : TerrainMap) :
    ∀ (pts : List Pos) (prev : Terrain) (total : ℚ),
      (clvGo tm pts prev total).isSome ↔
        List.Chain (fun a b => canMove a b = true) prev
          ((pts.filter fun p => decide (posInB tm.width tm.height p)).map
            fun p => tm.tile p.1 p.2) := by
  intro pts
  induction pts with
  | nil => intro prev total; simp [clvGo]
  | cons p rest ih =>
    intro prev total
    by_cases hp : posInB tm.width tm.height p
    · by_cases hm : canMove prev (tm.tile p.1 p.2) = true
      · simp [clvGo, hp, hm, ih, List.filter_cons, List.chain_cons]
      · simp [clvGo, hp, hm, List.filter_cons, List.chain_cons]
    · simp [clvGo, hp, ih, List.filter_cons]

lemma clvGo_sum (tm : TerrainMap) :
    ∀ (pts : List Pos) (prev : Terrain) (total q : ℚ),
      clvGo tm pts prev total = some q →
      q = total + (((pts.filter fun p => decide (posInB tm.width tm.height p)).map
          fun p => tm.tile p.1 p.2).map tileCost).sum := by
  intro pts
  induction pts with
  | nil =>
    intro prev total q h
    simp [clvGo] at h
    simp [h]
  | cons p rest ih =>
    intro prev total q h
    by_cases hp : posInB tm.width tm.height p
    · by_cases hm : canMove prev (tm.tile p.1 p.2) = true
      · rw [clvGo, if_pos hp, if_pos hm] at h
        have := ih (tm.tile p.1 p.2) (total + tileCost (tm.tile p.1 p.2)) q h
        simp [List.filter_cons, hp, this]
        ring
      · rw [clvGo, if_pos hp, if_neg hm] at h
        exact absurd h (by simp)
    · rw [clvGo, if_neg hp] at h
      simpa [List.filter_cons, hp] using ih prev total q h

/-- A 2×1 all-`SAND` grid used to exhibit the sum-versus-max divergence. -/
def tmAllSand : TerrainMap := ⟨2, 1, fun _ _ => SAND⟩

/-- C4 counterexample: on a 2×1 all-`SAND` grid the segment from (0,0) to
(1,0) samples two `SAND` tiles; `check_line_valid` in `pathfinder_v5.py`
reports cost 2 (the SUM of the per-tile costs), while the maximum per-tile
cost over the sampled tiles is 1, so the per-segment cost fed by
`astar_via_ramps` into `move_cost` is not the sampled maximum. -/
theorem checkLineValid_sum_ne_max :
    checkLineValid tmAllSand 0 0 1 0 = some 2 ∧
      segMaxTileCost tmAllSand 0 0 1 0 = 1 := by
  constructor
  · norm_num [checkLineValid, samplePoints, lineSteps, clvGo, sampleCoord, tmAllSand,
      posInB, tileCost, canMove, List.range_succ]
    decide
  · norm_num [segMaxTileCost, inBTiles, samplePoints, lineSteps, sampleCoord, tmAllSand,
      posInB, tileCost, List.range_succ]

/-- C4 (amended): on in-bounds endpoints, `get_path_cost`
(`pathfinder_v2.py`) and `line_cost` (`pathfinder_v3.py`) return exactly the
maximum per-tile cost over their sampled tiles (an infinite/impassable
sample forces an infinite result, and `a_star_pathfind` rejects such
segments); `check_line_valid` (`pathfinder_v5.py`) accepts a segment exactly
when every consecutive pair of in-bounds sampled tiles satisfies `can_move`
(so any `Abyss` sample rejects), but the cost it reports for a valid segment
is the SUM of the sampled per-tile costs, not the maximum. -/
theorem segmentCost_max_or_sum :
    ∀ (cm : CostMap) (tm : TerrainMap) (x1 y1 x2 y2 : ℤ),
      (∀ x y : ℤ, 0 ≤ cm.cost x y) →
      posInB cm.width cm.height (x2, y2) →
      (getPathCostV2 cm x1 y1 x2 y2 = segMaxCostOn cm (samplePointsV2 x1 y1 x2 y2) ∧
        lineCostV3 cm x1 y1 x2 y2 =
          segMaxCostOn cm (samplePoints x1 y1 x2 y2 (lineSteps x1 y1 x2 y2))) ∧
      ((checkLineValid tm x1 y1 x2 y2).isSome ↔
        List.Chain (fun a b => canMove a b = true) (tm.tile x1 y1)
          (inBTiles tm x1 y1 x2 y2)) ∧
      (∀ q, checkLineValid tm x1 y1 x2 y2 = some q →
        q = ((inBTiles tm x1 y1 x2 y2).map tileCost).sum) := by
  intro cm tm x1 y1 x2 y2 h0 hin2
  refine ⟨⟨?_, ?_⟩, ?_, ?_⟩
  · by_cases hd : max (x2 - x1).natAbs (y2 - y1).natAbs = 0
    · simp only [getPathCostV2, samplePointsV2, hd, if_pos rfl, segMaxCostOn,
        List.filter_cons, decide_eq_true_eq, hin2, if_pos]
      simp [max_eq_right (h0 x2 y2)]
    · simp only [getPathCostV2, samplePointsV2, hd, if_neg hd]
      exact maxCostGo_eq cm _ 0
  · exact maxCostGo_eq cm _ 0
  · exact clvGo_isSome_iff tm _ _ 0
  · intro q h
    simpa [inBTiles, List.map_map] using clvGo_sum tm _ _ 0 q h

/-- Witness for C4 at a concrete cost map, terrain grid and segment. -/
theorem segmentCost_max_or_sum_witness :
    getPathCostV2 ⟨1, 1, fun _ _ => 1⟩ 0 0 0 0 =
      segMaxCostOn ⟨1, 1, fun _ _ => 1⟩ (samplePointsV2 0 0 0 0) ∧
    (∀ q, checkLineValid tmAllSand 0 0 1 0 = some q →
      q = ((inBTiles tmAllSand 0 0 1 0).map tileCost).sum) :=
  ⟨((segmentCost_max_or_sum ⟨1, 1, fun _ _ => 1⟩ tmAllSand 0 0 0 0
      (fun _ _ => zero_le_one) (by decide)).1).1,
   (segmentCost_max_or_sum ⟨2, 1, fun _ _ => 1⟩ tmAllSand 0 0 1 0
      (fun _ _ => zero_le_one) (by decide)).2.2⟩

/-- Default coordinate used to totalize list indexing; every index the
algorithms use is in range. -/
def pzero : Pos := ((0 : ℤ), (0 : ℤ))

/-- The straight-segment validity test `check_line_valid(terrain_map,
a[0], a[1], b[0], b[1])` as used by `smooth_path`. -/
def segValidB (tm : TerrainMap) (a b : Pos) : Bool :=
  checkLineValidV9 tm a.1 a.2 b.1 b.2

/-- Inner scan of `smooth_path` (`pathfinder_v9.py` lines 184–189): from
anchor `i`, try `j` downward from the end of the path; the first `j` whose
straight segment from `path[i]` is valid wins; if none is valid the default
`best_j = i + 1` stands. -/
def findBestJ (tm : TerrainMap) (path : List Pos) (i : ℕ) : ℕ → ℕ
  | 0 => i + 1
  | j + 1 =>
    if j + 1 ≤ i then i + 1
    else if segValidB tm (path.getD i pzero) (path.getD (j + 1) pzero) then j + 1
    else findBestJ tm path i j

lemma findBestJ_gt (tm : TerrainMap) (path : List Pos) (i : ℕ) :
    ∀ j, i < findBestJ tm path i j := by
  intro j
  induction j with
  | zero => simp only [findBestJ]; omega
  | succ j ih =>
    simp only [findBestJ]
    by_cases h1 : j + 1 ≤ i
    · rw [if_pos h1]; omega
    · rw [if_neg h1]
      by_cases h2 : segValidB tm (path.getD i pzero) (path.getD (j + 1) pzero) = true
      · rw [if_pos h2]; omega
      · rw [if_neg h2]; exact ih

lemma findBestJ_le (tm : TerrainMap) (path : List Pos) (i : ℕ) :
    ∀ j, findBestJ tm path i j ≤ max (i + 1) j := by
  intro j
  induction j with
  | zero => simp only [findBestJ]; omega
  | succ j ih =>
    simp only [findBestJ]
    by_cases h1 : j + 1 ≤ i
    · rw [if_pos h1]; omega
    · rw [if_neg h1]
      by_cases h2 : segValidB tm (path.getD i pzero) (path.getD (j + 1) pzero) = true
      · rw [if_pos h2]; omega
      · rw [if_neg h2]
        rcases Nat.le_total (findBestJ tm path i j) (i + 1) with h | h
        · omega
        · have := ih
          omega

/-- Maximality of the greedy scan: every index strictly beyond the chosen
one (up to the scan's top) fails the validity test. -/
lemma findBestJ_not_valid (tm : TerrainMap) (path : List Pos) (i : ℕ) :
    ∀ j m, findBestJ tm path i j < m → m ≤ j →
      segValidB tm (path.getD i pzero) (path.getD m pzero) = false := by
  intro j
  induction j with
  | zero => intro m h1 h2; omega
  | succ j ih =>
    intro m h1 h2
    simp only [findBestJ] at h1
    by_cases hle : j + 1 ≤ i
    · rw [if_pos hle] at h1
      omega
    · rw [if_neg hle] at h1
      by_cases hv : segValidB tm (path.getD i pzero) (path.getD (j + 1) pzero) = true
      · rw [if_pos hv] at h1
        omega
      · rw [if_neg hv] at h1
        rcases Nat.lt_or_ge m (j + 1) with hm | hm
        · exact ih m h1 (by omega)
        · have : m = j + 1 := by omega
          subst this
          simpa using hv

/-- The chosen index is either the default `i + 1` or passes the validity
test. -/
lemma findBestJ_valid_or_default (tm : TerrainMap) (path : List Pos) (i : ℕ) :
    ∀ j, findBestJ tm path i j = i + 1 ∨
      segValidB tm (path.getD i pzero) (path.getD (findBestJ tm path i j) pzero) = true := by
  intro j
  induction j with
  | zero => left; rfl
  | succ j ih =>
    simp only [findBestJ]
    by_cases hle : j + 1 ≤ i
    · left; rw [if_pos hle]
    · rw [if_neg hle]
      by_cases hv : segValidB tm (path.getD i pzero) (path.getD (j + 1) pzero) = true
      · right; rw [if_pos hv]; exact hv
      · rw [if_neg hv]; exact ih

/-- Outer loop of `smooth_path` (`pathfinder_v9.py` lines 183–191) written
as the list of waypoints appended after the initial `smoothed = [path[0]]`:
from anchor `i`, append `path[best_j]` and continue from `best_j` while
`i < len(path) - 1`. -/
def smoothAux (tm : TerrainMap) (path : List Pos) (i : ℕ) : List Pos :=
  if _h : i < path.length - 1 then
    path.getD (findBestJ tm path i (path.length - 1)) pzero ::
      smoothAux tm path (findBestJ tm path i (path.length - 1))
  else []
termination_by path.length - i
decreasing_by
  have := findBestJ_gt tm path i (path.length - 1)
  omega

/-- The anchor indices visited by the outer loop of `smooth_path`. -/
def anchorsAux (tm : TerrainMap) (path : List Pos) (i : ℕ) : List ℕ :=
  if _h : i < path.length - 1 then
    findBestJ tm path i (path.length - 1) ::
      anchorsAux tm path (findBestJ tm path i (path.length - 1))
  else []
termination_by path.length - i
decreasing_by
  have := findBestJ_gt tm path i (path.length - 1)
  omega

/-- `smooth_path` from `pathfinder_v9.py` (lines 175–193); semantically the
same routine as `smooth_path` in `pathfinder_v5.py` (lines 284–306). -/
def smoothPath (tm : TerrainMap) (path : List Pos) : List Pos :=
  if path.length ≤ 2 then path
  else path.getD 0 pzero :: smoothAux tm path 0

lemma smoothAux_neg (tm : TerrainMap) (path : List Pos) (i : ℕ)
    (h : ¬ i < path.length - 1) : smoothAux tm path i = [] := by
  rw [smoothAux, dif_neg h]

lemma smoothAux_pos (tm : TerrainMap) (path : List Pos) (i : ℕ)
    (h : i < path.length - 1) :
    smoothAux tm path i =
      path.getD (findBestJ tm path i (path.length - 1)) pzero ::
        smoothAux tm path (findBestJ tm path i (path.length - 1)) := by
  rw [smoothAux, dif_pos h]

lemma anchorsAux_neg (tm : TerrainMap) (path : List Pos) (i : ℕ)
    (h : ¬ i < path.length - 1) : anchorsAux tm path i = [] := by
  rw [anchorsAux, dif_neg h]

lemma anchorsAux_pos (tm : TerrainMap) (path : List Pos) (i : ℕ)
    (h : i < path.length - 1) :
    anchorsAux tm path i =
      findBestJ tm path i (path.length - 1) ::
        anchorsAux tm path (findBestJ tm path i (path.length - 1)) := by
  rw [anchorsAux, dif_pos h]

lemma smoothAux_eq_map (tm : TerrainMap) (path : List Pos) :
    ∀ n i, path.length - i ≤ n →
      smoothAux tm path i = (anchorsAux tm path i).map (fun a => path.getD a pzero) := by
  intro n
  induction n with
  | zero =>
    intro i hi
    rw [smoothAux_neg tm path i (by omega), anchorsAux_neg tm path i (by omega)]
    rfl
  | succ n ih =>
    intro i hi
    by_cases h : i < path.length - 1
    · rw [smoothAux_pos tm path i h, anchorsAux_pos tm path i h, List.map_cons]
      congr 1
      exact ih _ (by have := findBestJ_gt tm path i (path.length - 1); omega)
    · rw [smoothAux_neg tm path i h, anchorsAux_neg tm path i h]
      rfl

lemma anchorsAux_le (tm : TerrainMap) (path : List Pos) :
    ∀ n i, path.length - i ≤ n → ∀ a ∈ anchorsAux tm path i, a ≤ path.length - 1 := by
  intro n
  induction n with
  | zero =>
    intro i hi a ha
    rw [anchorsAux_neg tm path i (by omega)] at ha
    cases ha
  | succ n ih =>
    intro i hi a ha
    by_cases h : i < path.length - 1
    · rw [anchorsAux_pos tm path i h] at ha
      have hgt := findBestJ_gt tm path i (path.length - 1)
      have hle := findBestJ_le tm path i (path.length - 1)
      rcases List.mem_cons.1 ha with rfl | ha'
      · omega
      · exact ih _ (by omega) a ha'
    · rw [anchorsAux_neg tm path i h] at ha
      cases ha

lemma anchorsAux_getLast (tm : TerrainMap) (path : List Pos) :
    ∀ n i, path.length - i ≤ n → i < path.length - 1 →
      (anchorsAux tm path i).getLast? = some (path.length - 1) := by
  intro n
  induction n with
  | zero => intro i hi h; omega
  | succ n ih =>
    intro i hi h
    have hgt := findBestJ_gt tm path i (path.length - 1)
    have hle := findBestJ_le tm path i (path.length - 1)
    rw [anchorsAux_pos tm path i h]
    by_cases hj : findBestJ tm path i (path.length - 1) < path.length - 1
    · have hrec := ih (findBestJ tm path i (path.length - 1)) (by omega) hj
      rcases List.exists_cons_of_ne_nil
        (by rw [anchorsAux_pos tm path _ hj]; simp :
          anchorsAux tm path (findBestJ tm path i (path.length - 1)) ≠ []) with ⟨c, t, hct⟩
      rw [hct] at hrec ⊢
      rw [List.getLast?_cons_cons]
      exact hrec
    · have hjeq : findBestJ tm path i (path.length - 1) = path.length - 1 := by omega
      rw [hjeq, anchorsAux_neg tm path _ (by omega)]
      rfl

/-- Consecutive anchors are produced by `findBestJ`: index form over the
full anchor list `i :: anchorsAux tm path i`. -/
lemma anchors_getD_succ (tm : TerrainMap) (path : List Pos) :
    ∀ n i k, path.length - i ≤ n → k + 1 < (i :: anchorsAux tm path i).length →
      (i :: anchorsAux tm path i).getD (k + 1) 0 =
        findBestJ tm path ((i :: anchorsAux tm path i).getD k 0) (path.length - 1) := by
  intro n
  induction n with
  | zero =>
    intro i k hi hk
    rw [anchorsAux_neg tm path i (by omega)] at hk
    simp at hk
  | succ n ih =>
    intro i k hi hk
    by_cases h : i < path.length - 1
    · rw [anchorsAux_pos tm path i h] at hk ⊢
      match k with
      | 0 => rfl
      | k + 1 =>
        have := ih (findBestJ tm path i (path.length - 1)) k
          (by have := findBestJ_gt tm path i (path.length - 1); omega)
          (by simpa using hk)
        simpa using this
    · rw [anchorsAux_neg tm path i h] at hk
      simp at hk

lemma anchors_getD_lt_succ (tm : TerrainMap) (path : List Pos) (i k : ℕ)
    (hk : k + 1 < (i :: anchorsAux tm path i).length) :
    (i :: anchorsAux tm path i).getD k 0 < (i :: anchorsAux tm path i).getD (k + 1) 0 := by
  rw [anchors_getD_succ tm path (path.length - i) i k le_rfl hk]
  exact findBestJ_gt tm path _ _

lemma anchors_getD_strictMono (tm : TerrainMap) (path : List Pos) (i : ℕ) :
    ∀ k l, k < l → l < (i :: anchorsAux tm path i).length →
      (i :: anchorsAux tm path i).getD k 0 < (i :: anchorsAux tm path i).getD l 0 := by
  intro k l
  induction l with
  | zero => intro h _; omega
  | succ l ihl =>
    intro hkl hl
    rcases Nat.lt_or_ge k l with h | h
    · exact lt_trans (ihl h (by omega)) (anchors_getD_lt_succ tm path i l hl)
    · have : k = l := by omega
      subst this
      exact anchors_getD_lt_succ tm path i k hl

/-- Every entry of the anchor list (head included, for `i ≤ len - 1`) is at
most the last path index. -/
lemma anchors_getD_le (tm : TerrainMap) (path : List Pos) (i : ℕ)
    (hi : i ≤ path.length - 1) :
    ∀ k, k < (i :: anchorsAux tm path i).length →
      (i :: anchorsAux tm path i).getD k 0 ≤ path.length - 1 := by
  intro k hk
  match k with
  | 0 => exact hi
  | k + 1 =>
    have hmem : (i :: anchorsAux tm path i).getD (k + 1) 0 ∈ anchorsAux tm path i := by
      have : (i :: anchorsAux tm path i).getD (k + 1) 0 =
          (anchorsAux tm path i).getD k 0 := rfl
      rw [this, List.getD_eq_getElem _ _ (by simpa using hk)]
      exact List.getElem_mem _
    exact anchorsAux_le tm path (path.length - i) i le_rfl _ hmem

/-- Under the hypothesis that every consecutive input pair is a valid
segment, the waypoints appended by `smooth_path` form a valid chain from
the current anchor. -/
lemma smoothAux_chain_valid (tm : TerrainMap) (path : List Pos)
    (hall : ∀ k, k + 1 < path.length →
      segValidB tm (path.getD k pzero) (path.getD (k + 1) pzero) = true) :
    ∀ n i, path.length - i ≤ n →
      List.Chain (fun a b => segValidB tm a b = true) (path.getD i pzero)
        ((anchorsAux tm path i).map (fun a => path.getD a pzero)) := by
  intro n
  induction n with
  | zero =>
    intro i hi
    rw [anchorsAux_neg tm path i (by omega)]
    exact List.Chain.nil
  | succ n ih =>
    intro i hi
    by_cases h : i < path.length - 1
    · rw [anchorsAux_pos tm path i h, List.map_cons]
      refine List.Chain.cons ?_ (ih _ (by have := findBestJ_gt tm path i (path.length - 1); omega))
      rcases findBestJ_valid_or_default tm path i (path.length - 1) with hd | hv
      · rw [hd]
        exact hall i (by omega)
      · exact hv
    · rw [anchorsAux_neg tm path i h]
      exact List.Chain.nil

/-- A strictly ascending list of in-range indices maps through `getD` to a
sublist of the suffix of the path that starts at any lower bound of the
indices. -/
lemma map_getD_sublist (path : List Pos) :
    ∀ (idxs : List ℕ) (k : ℕ),
      List.Chain' (· < ·) idxs → (∀ a ∈ idxs, a < path.length) →
      (∀ a ∈ idxs, k ≤ a) →
      (idxs.map fun a => path.getD a pzero).Sublist (path.drop k) := by
  intro idxs
  induction idxs with
  | nil => intro k _ _ _; exact List.nil_sublist _
  | cons a t ih =>
    intro k hch hlt hge
    have ha : a < path.length := hlt a (List.mem_cons_self a t)
    have hta : ∀ b ∈ t, a < b := by
      have hpw := (List.chain'_iff_pairwise.1 hch)
      exact (List.pairwise_cons.1 hpw).1
    have h1 : (t.map fun a => path.getD a pzero).Sublist (path.drop (a + 1)) :=
      ih (a + 1) hch.tail (fun b hb => hlt b (List.mem_cons_of_mem a hb))
        (fun b hb => hta b hb)
    have hdropa : path.drop a = path.getD a pzero :: path.drop (a + 1) := by
      rw [List.getD_eq_getElem path pzero ha]
      exact List.drop_eq_getElem_cons ha
    have h2 : ((a :: t).map fun a => path.getD a pzero).Sublist (path.drop a) := by
      rw [List.map_cons, hdropa]
      exact List.Sublist.cons₂ _ h1
    have h3 : (path.drop a).Sublist (path.drop k) := by
      have hka : k ≤ a := hge a (List.mem_cons_self a t)
      have : path.drop a = (path.drop k).drop (a - k) := by
        rw [List.drop_drop]
        congr 1
        omega
      rw [this]
      exact List.drop_sublist _ _
    exact h2.trans h3

lemma getLast?_eq_getD (l : List Pos) (h : l ≠ []) :
    l.getLast? = some (l.getD (l.length - 1) pzero) := by
  have hlen : 0 < l.length := List.length_pos.2 h
  rw [List.getLast?_eq_getElem?, List.getElem?_eq_getElem (by omega),
    List.getD_eq_getElem l pzero (by omega)]

lemma getD_map_pos (f : ℕ → Pos) (A : List ℕ) (k : ℕ) (h : k < A.length) :
    (A.map f).getD k pzero = f (A.getD k 0) := by
  rw [List.getD_eq_getElem _ _ (by simpa using h), List.getD_eq_getElem _ _ h,
    List.getElem_map]

lemma anchorsAux_chain_lt (tm : TerrainMap) (path : List Pos) :
    ∀ n i, path.length - i ≤ n → List.Chain (· < ·) i (anchorsAux tm path i) := by
  intro n
  induction n with
  | zero =>
    intro i hi
    rw [anchorsAux_neg tm path i (by omega)]
    exact List.Chain.nil
  | succ n ih =>
    intro i hi
    by_cases h : i < path.length - 1
    · rw [anchorsAux_pos tm path i h]
      exact List.Chain.cons (findBestJ_gt tm path i (path.length - 1))
        (ih _ (by have := findBestJ_gt tm path i (path.length - 1); omega))
    · rw [anchorsAux_neg tm path i h]
      exact List.Chain.nil

lemma anchorsAux_ne_nil (tm : TerrainMap) (path : List Pos) (i : ℕ)
    (h : i < path.length - 1) : anchorsAux tm path i ≠ [] := by
  rw [anchorsAux_pos tm path i h]
  simp

/-- C2: for an input path on which every consecutive pair passes
`check_line_valid`, `smooth_path` returns a subsequence of the input that
begins at the input's first point and ends at its last point, in which every
consecutive pair passes `check_line_valid`, and from which no single
interior waypoint can be removed while keeping every remaining consecutive
pair valid (each segment bridging two once-removed neighbours is invalid). -/
theorem smoothPath_spec (tm : TerrainMap) (path : List Pos)
    (hall : ∀ k, k + 1 < path.length →
      segValidB tm (path.getD k pzero) (path.getD (k + 1) pzero) = true) :
    (smoothPath tm path).Sublist path ∧
    (smoothPath tm path).head? = path.head? ∧
    (smoothPath tm path).getLast? = path.getLast? ∧
    List.Chain' (fun a b => segValidB tm a b = true) (smoothPath tm path) ∧
    (∀ k, k + 2 < (smoothPath tm path).length →
      segValidB tm ((smoothPath tm path).getD k pzero)
        ((smoothPath tm path).getD (k + 2) pzero) = false) := by
  by_cases hlen : path.length ≤ 2
  · rw [smoothPath, if_pos hlen]
    refine ⟨List.Sublist.refl _, rfl, rfl, ?_, ?_⟩
    · match path, hlen with
      | [], _ => exact trivial
      | [a], _ => exact List.chain'_singleton a
      | [a, b], _ =>
        have := hall 0 (by norm_num)
        simpa [List.chain'_cons] using this
    · intro k hk
      omega
  · have hlen3 : 2 < path.length := by omega
    have hpne : path ≠ [] := by
      intro h
      rw [h] at hlen3
      simp at hlen3
    have hq : smoothPath tm path =
        ((0 : ℕ) :: anchorsAux tm path 0).map (fun a => path.getD a pzero) := by
      rw [smoothPath, if_neg hlen, smoothAux_eq_map tm path path.length 0 (by omega),
        List.map_cons]
    have hAlt : ∀ a ∈ (0 : ℕ) :: anchorsAux tm path 0, a < path.length := by
      intro a ha
      rcases List.mem_cons.1 ha with rfl | ha'
      · omega
      · have := anchorsAux_le tm path path.length 0 (by omega) a ha'
        omega
    refine ⟨?_, ?_, ?_, ?_, ?_⟩
    · rw [hq]
      have := map_getD_sublist path ((0 : ℕ) :: anchorsAux tm path 0) 0
        (anchorsAux_chain_lt tm path path.length 0 (by omega)) hAlt (by omega)
      simpa using this
    · rw [hq]
      rcases List.exists_cons_of_ne_nil hpne with ⟨a, t, hat⟩
      simp [hat]
    · rw [hq]
      have hne0 : anchorsAux tm path 0 ≠ [] := anchorsAux_ne_nil tm path 0 (by omega)
      rcases List.exists_cons_of_ne_nil hne0 with ⟨c, t, hct⟩
      have hlast : (anchorsAux tm path 0).getLast? = some (path.length - 1) :=
        anchorsAux_getLast tm path path.length 0 (by omega) (by omega)
      have hlastA : ((0 : ℕ) :: anchorsAux tm path 0).getLast? =
          some (path.length - 1) := by
        rw [hct, List.getLast?_cons_cons, ← hct, hlast]
      rw [getLast?_eq_getD path hpne, List.getLast?_map, hlastA]
      rfl
    · rw [hq, List.map_cons]
      exact smoothAux_chain_valid tm path hall path.length 0 (by omega)
    · intro k hk
      rw [hq] at hk ⊢
      rw [List.length_map] at hk
      rw [getD_map_pos _ _ _ (by omega), getD_map_pos _ _ _ hk]
      have hsucc : ((0 : ℕ) :: anchorsAux tm path 0).getD (k + 1) 0 =
          findBestJ tm path (((0 : ℕ) :: anchorsAux tm path 0).getD k 0)
            (path.length - 1) :=
        anchors_getD_succ tm path path.length 0 k (by omega) (by omega)
      have hlt : ((0 : ℕ) :: anchorsAux tm path 0).getD (k + 1) 0 <
          ((0 : ℕ) :: anchorsAux tm path 0).getD (k + 2) 0 :=
        anchors_getD_lt_succ tm path 0 (k + 1) hk
      have hle : ((0 : ℕ) :: anchorsAux tm path 0).getD (k + 2) 0 ≤ path.length - 1 :=
        anchors_getD_le tm path 0 (by omega) (k + 2) hk
      exact findBestJ_not_valid tm path _ (path.length - 1) _ (by omega) hle

lemma smoothPath_eq_map (tm : TerrainMap) (path : List Pos)
    (hlen : ¬ path.length ≤ 2) :
    smoothPath tm path =
      ((0 : ℕ) :: anchorsAux tm path 0).map (fun a => path.getD a pzero) := by
  rw [smoothPath, if_neg hlen, smoothAux_eq_map tm path path.length 0 (by omega),
    List.map_cons]

/-- Any two output waypoints more than one step apart are joined by an
invalid segment: the greedy scan already chose the furthest valid target. -/
lemma smoothPath_far_invalid (tm : TerrainMap) (path : List Pos)
    (hlen : ¬ path.length ≤ 2) :
    ∀ k m, k + 1 < m → m < (smoothPath tm path).length →
      segValidB tm ((smoothPath tm path).getD k pzero)
        ((smoothPath tm path).getD m pzero) = false := by
  intro k m hkm hm
  rw [smoothPath_eq_map tm path hlen] at hm ⊢
  rw [List.length_map] at hm
  rw [getD_map_pos _ _ _ (by omega), getD_map_pos _ _ _ hm]
  have hsucc : ((0 : ℕ) :: anchorsAux tm path 0).getD (k + 1) 0 =
      findBestJ tm path (((0 : ℕ) :: anchorsAux tm path 0).getD k 0)
        (path.length - 1) :=
    anchors_getD_succ tm path path.length 0 k (by omega) (by omega)
  have hmono : ((0 : ℕ) :: anchorsAux tm path 0).getD (k + 1) 0 <
      ((0 : ℕ) :: anchorsAux tm path 0).getD m 0 :=
    anchors_getD_strictMono tm path 0 (k + 1) m (by omega) hm
  have hle : ((0 : ℕ) :: anchorsAux tm path 0).getD m 0 ≤ path.length - 1 :=
    anchors_getD_le tm path 0 (by omega) m hm
  exact findBestJ_not_valid tm path _ (path.length - 1) _ (by omega) hle

/-- Every consecutive output pair is a valid segment (under the hypothesis
that the input's consecutive pairs are valid). -/
lemma smoothPath_consec_valid (tm : TerrainMap) (path : List Pos)
    (hall : ∀ k, k + 1 < path.length →
      segValidB tm (path.getD k pzero) (path.getD (k + 1) pzero) = true) :
    ∀ k, k + 1 < (smoothPath tm path).length →
      segValidB tm ((smoothPath tm path).getD k pzero)
        ((smoothPath tm path).getD (k + 1) pzero) = true := by
  intro k hk
  by_cases hlen : path.length ≤ 2
  · rw [smoothPath, if_pos hlen] at hk ⊢
    exact hall k hk
  · rw [smoothPath_eq_map tm path hlen] at hk ⊢
    rw [List.length_map] at hk
    rw [getD_map_pos _ _ _ (by omega), getD_map_pos _ _ _ hk]
    have hsucc : ((0 : ℕ) :: anchorsAux tm path 0).getD (k + 1) 0 =
        findBestJ tm path (((0 : ℕ) :: anchorsAux tm path 0).getD k 0)
          (path.length - 1) :=
      anchors_getD_succ tm path path.length 0 k (by omega) hk
    rcases findBestJ_valid_or_default tm path
        (((0 : ℕ) :: anchorsAux tm path 0).getD k 0) (path.length - 1) with hd | hv
    · rw [hsucc, hd]
      have hle : ((0 : ℕ) :: anchorsAux tm path 0).getD (k + 1) 0 ≤ path.length - 1 :=
        anchors_getD_le tm path 0 (by omega) (k + 1) hk
      rw [hsucc, hd] at hle
      exact hall _ (by omega)
    · rw [hsucc]
      exact hv

/-- If the furthest-valid scan always returns `k + 1` (no skip possible),
the outer loop reproduces the tail of the path. -/
lemma findBestJ_eq_succ (tm : TerrainMap) (q : List Pos) (k : ℕ) :
    ∀ j, (∀ m, k + 1 < m → m ≤ j →
        segValidB tm (q.getD k pzero) (q.getD m pzero) = false) →
      segValidB tm (q.getD k pzero) (q.getD (k + 1) pzero) = true →
      findBestJ tm q k j = k + 1 := by
  intro j
  induction j with
  | zero => intro _ _; rfl
  | succ j ih =>
    intro hm hv
    simp only [findBestJ]
    by_cases hle : j + 1 ≤ k
    · rw [if_pos hle]
    · rw [if_neg hle]
      by_cases heq : j = k
      · subst heq
        rw [if_pos hv]
      · have hj : k + 1 < j + 1 := by omega
        rw [if_neg (by rw [hm (j + 1) hj le_rfl]; simp)]
        exact ih (fun m h1 h2 => hm m h1 (by omega)) hv

lemma smoothAux_eq_drop (tm : TerrainMap) (q : List Pos)
    (hf : ∀ k, k < q.length - 1 → findBestJ tm q k (q.length - 1) = k + 1) :
    ∀ n k, q.length - k ≤ n → smoothAux tm q k = q.drop (k + 1) := by
  intro n
  induction n with
  | zero =>
    intro k hk
    rw [smoothAux_neg _ _ _ (by omega)]
    exact (List.drop_eq_nil_of_le (by omega)).symm
  | succ n ih =>
    intro k hk
    by_cases h : k < q.length - 1
    · rw [smoothAux_pos _ _ _ h, hf k h, ih (k + 1) (by omega)]
      rw [List.getD_eq_getElem _ _ (by omega)]
      exact (List.drop_eq_getElem_cons (by omega)).symm
    · rw [smoothAux_neg _ _ _ h]
      exact (List.drop_eq_nil_of_le (by omega)).symm

/-- C8: `smooth_path` is idempotent on any path whose consecutive pairs are
valid segments — a second pass removes nothing further. -/
theorem smoothPath_idempotent (tm : TerrainMap) (path : List Pos)
    (hall : ∀ k, k + 1 < path.length →
      segValidB tm (path.getD k pzero) (path.getD (k + 1) pzero) = true) :
    smoothPath tm (smoothPath tm path) = smoothPath tm path := by
  by_cases h2 : (smoothPath tm path).length ≤ 2
  · conv_lhs => rw [smoothPath]
    rw [if_pos h2]
  · have hlenp : ¬ path.length ≤ 2 := by
      intro hp
      rw [smoothPath, if_pos hp] at h2
      exact h2 hp
    have hf : ∀ k, k < (smoothPath tm path).length - 1 →
        findBestJ tm (smoothPath tm path) k ((smoothPath tm path).length - 1) = k + 1 := by
      intro k hk
      refine findBestJ_eq_succ tm (smoothPath tm path) k _ ?_ ?_
      · intro m h1 h2m
        exact smoothPath_far_invalid tm path hlenp k m h1 (by omega)
      · exact smoothPath_consec_valid tm path hall k (by omega)
    have hne : smoothPath tm path ≠ [] := by
      intro h
      rw [h] at h2
      simp at h2
    conv_lhs => rw [smoothPath]
    rw [if_neg h2, smoothAux_eq_drop tm (smoothPath tm path) hf
      (smoothPath tm path).length 0 (by omega)]
    rcases List.exists_cons_of_ne_nil hne with ⟨a, t, hat⟩
    rw [hat]
    rfl

/-- A concrete valid three-point path on the 2×1 all-`SAND` grid. -/
def pathW : List Pos := [((0 : ℤ), (0 : ℤ)), ((1 : ℤ), (0 : ℤ)), ((1 : ℤ), (0 : ℤ))]

/-- Witness for C2 at a concrete grid and path. -/
theorem smoothPath_spec_witness :
    (smoothPath tmAllSand pathW).Sublist pathW ∧
    (smoothPath tmAllSand pathW).head? = pathW.head? ∧
    (smoothPath tmAllSand pathW).getLast? = pathW.getLast? ∧
    List.Chain' (fun a b => segValidB tmAllSand a b = true) (smoothPath tmAllSand pathW) ∧
    (∀ k, k + 2 < (smoothPath tmAllSand pathW).length →
      segValidB tmAllSand ((smoothPath tmAllSand pathW).getD k pzero)
        ((smoothPath tmAllSand pathW).getD (k + 2) pzero) = false) :=
  smoothPath_spec tmAllSand pathW (fun k hk => by
    have hk2 : k ≤ 1 := by
      have : k + 1 < 3 := by simpa [pathW] using hk
      omega
    interval_cases k <;> decide)

/-- Witness for C8 at the same concrete grid and path. -/
theorem smoothPath_idempotent_witness :
    smoothPath tmAllSand (smoothPath tmAllSand pathW) = smoothPath tmAllSand pathW :=
  smoothPath_idempotent tmAllSand pathW (fun k hk => by
    have hk2 : k ≤ 1 := by
      have : k + 1 < 3 := by simpa [pathW] using hk
      omega
    interval_cases k <;> decide)

section SearchKernel

open scoped Classical

/-- Euclidean distance `math.sqrt((a.x-b.x)**2 + (a.y-b.y)**2)` as a real
number (the scripts' float heuristic `h` and step distance). -/
noncomputable def euclid (a b : Pos) : ℝ :=
  Real.sqrt ((((a.1 - b.1) ^ 2 + (a.2 - b.2) ^ 2 : ℤ) : ℝ))

/-- The goal-proximity termination test `h(current) < step * 2`, embedded
on squares (exact for the correctly rounded float `sqrt`). -/
def goalNear (goal : Pos) (stp : ℕ) (p : Pos) : Prop :=
  (p.1 - goal.1) ^ 2 + (p.2 - goal.2) ^ 2 < ((2 * stp : ℕ) : ℤ) ^ 2

instance (goal : Pos) (stp : ℕ) (p : Pos) : Decidable (goalNear goal stp p) := by
  unfold goalNear; infer_instance

/-- `neighbors` from `pathfinder_v5.py` (lines 169–175) and `get_neighbors`
from `pathfinder_v2.py` (lines 110–121): the eight step offsets, kept when
inside the grid bounds. -/
def neighborsOf (w h stp : ℕ) (p : Pos) : List Pos :=
  (([(-(stp : ℤ), (0 : ℤ)), ((stp : ℤ), 0), (0, -(stp : ℤ)), (0, (stp : ℤ)),
     (-(stp : ℤ), -(stp : ℤ)), (-(stp : ℤ), (stp : ℤ)),
     ((stp : ℤ), -(stp : ℤ)), ((stp : ℤ), (stp : ℤ))]).map
    (fun d => (p.1 + d.1, p.2 + d.2))).filter fun q => decide (posInB w h q)

/-- `ramp_bonus` from `pathfinder_v5.py` (lines 223–232): −0.5 when the
minimum distance to a ramp-cluster centre is below 30 (equivalently, some
squared distance is below 900; the empty minimum is `inf`), else 0. -/
def rampBonus (clusters : List Pos) (p : Pos) : ℚ :=
  if clusters.any (fun r => decide ((p.1 - r.1) ^ 2 + (p.2 - r.2) ^ 2 < 900))
  then -(1 / 2) else 0

/-- First-match association-list lookup, modelling Python dict access on
`came_from` / `g_score` (updates are consed in front). -/
def look {β : Type} : List (Pos × β) → Pos → Option β
  | [], _ => none
  | (k, v) :: rest, p => if k = p then some v else look rest p

/-- Parameters of the A* loop shape shared by `a_star_pathfind`
(`pathfinder_v2.py` lines 155–219) and `astar_via_ramps`
(`pathfinder_v5.py` lines 212–281): grid bounds, movement step, goal,
the validated cost of one straight step (`none` when the segment is
rejected), and the seed of the reconstruction accumulator. -/
structure SearchCfg where
  width : ℕ
  height : ℕ
  stp : ℕ
  goal : Pos
  segCost : Pos → Pos → Option ℝ
  recInit : Pos → List Pos

/-- Mutable state of the A* loop: `open_set` entries `(f, counter, pos)`
(the heap as a multiset), `came_from` and `g_score` as most-recent-first
association lists, the closed set as a list in closing order, and the
tie-break counter. -/
structure SearchState where
  openSet : List (ℝ × ℕ × Pos)
  cameFrom : List (Pos × Pos)
  gScore : List (Pos × ℝ)
  closedL : List Pos
  counter : ℕ

/-- Outcome of a search run: the explicit not-found `None`, a found
waypoint list, or `stuck` — reconstruction fuel exhausted, proved
unreachable below. -/
inductive AStarRes where
  | noPath
  | found (p : List Pos)
  | stuck
  deriving DecidableEq

/-- Path reconstruction (`pathfinder_v5.py` lines 247–252 /
`pathfinder_v2.py` lines 189–193): follow `came_from`, appending each
predecessor to the accumulator, and finally reverse.  The `while` loop is
given fuel; the callers pass `closed.length + 1`, which the ranking
invariant proves sufficient. -/
def reconstruct (came : List (Pos × Pos)) : ℕ → Pos → List Pos → AStarRes
  | 0, _, _ => AStarRes.stuck
  | fuel + 1, cur, acc =>
    match look came cur with
    | none => AStarRes.found acc.reverse
    | some p => reconstruct came fuel p (acc ++ [p])

/-- Per-neighbor body of the expansion loop (`pathfinder_v5.py`
lines 256–275 / `pathfinder_v2.py` lines 197–215): skip closed neighbors
and rejected segments; on a strict `g`-improvement (missing entries count
as `inf`) record predecessor and cost and push `(g + h, counter, n)`. -/
noncomputable def expandOne (cfg : SearchCfg) (current : Pos) (s : SearchState)
    (n : Pos) : SearchState :=
  if n ∈ s.closedL then s
  else
    match cfg.segCost current n with
    | none => s
    | some mc =>
      let tg : ℝ := ((look s.gScore current).getD 0) + mc
      if _h : (match look s.gScore n with
              | none => True
              | some gn => tg < gn) then
        { openSet := (tg + euclid n cfg.goal, s.counter + 1, n) :: s.openSet,
          cameFrom := (n, current) :: s.cameFrom,
          gScore := (n, tg) :: s.gScore,
          closedL := s.closedL,
          counter := s.counter + 1 }
      else s

/-- Expansion of all (in-bounds) neighbors of the popped node. -/
noncomputable def expandAll (cfg : SearchCfg) (current : Pos) (s : SearchState) :
    SearchState :=
  (neighborsOf cfg.width cfg.height cfg.stp current).foldl (expandOne cfg current) s

/-- Result of one loop iteration. -/
inductive StepRes where
  | done (r : AStarRes)
  | cont (s : SearchState)

/-- Placeholder entry for the (always in-range) indexed pop. -/
noncomputable def defaultEntry : ℝ × ℕ × Pos := (0, 0, ((0 : ℤ), (0 : ℤ)))

/-- One iteration of the `while open_set` loop.  The heap pop is modelled
as removing the entry at index `sel % |open_set|`: the real heap orders
entries by IEEE-float keys `(f, counter)` whose rounding we do not model;
every theorem below is proved for every selection sequence, which in
particular includes the heap's order.  A popped closed node is skipped;
a pop inside the goal-proximity region triggers reconstruction (the goal
itself is seeded into the accumulator by `recInit` without any segment
validation); otherwise the node is closed and expanded. -/
noncomputable def astarStep (cfg : SearchCfg) (sel : ℕ) (s : SearchState) : StepRes :=
  if s.openSet.isEmpty then StepRes.done AStarRes.noPath
  else
    let idx := sel % s.openSet.length
    let e := s.openSet.getD idx defaultEntry
    let rest := s.openSet.eraseIdx idx
    let current := e.2.2
    if current ∈ s.closedL then StepRes.cont { s with openSet := rest }
    else if goalNear cfg.goal cfg.stp current then
      StepRes.done (reconstruct s.cameFrom (s.closedL.length + 1) current
        (cfg.recInit current))
    else
      StepRes.cont (expandAll cfg current
        { s with openSet := rest, closedL := s.closedL ++ [current] })

/-- The search loop with explicit fuel; `none` is fuel exhaustion — it is
exactly the `max_iterations` cap of `pathfinder_v2.py`, and for
`pathfinder_v5.py` (which has no cap) the chosen fuel is proved never to
run out. -/
noncomputable def astarLoop (cfg : SearchCfg) (sels : ℕ → ℕ) :
    ℕ → ℕ → SearchState → Option AStarRes
  | 0, _, _ => none
  | fuel + 1, k, s =>
    match astarStep cfg (sels k) s with
    | StepRes.done r => some r
    | StepRes.cont s2 => astarLoop cfg sels fuel (k + 1) s2

/-- The state after at most `n` further iterations (stopping early when
the loop returns); used to state the closed-node freeze invariant. -/
noncomputable def loopState (cfg : SearchCfg) (sels : ℕ → ℕ) :
    ℕ → ℕ → SearchState → SearchState
  | 0, _, s => s
  | fuel + 1, k, s =>
    match astarStep cfg (sels k) s with
    | StepRes.done _ => s
    | StepRes.cont s2 => loopState cfg sels fuel (k + 1) s2

/-- Initial search state: only the start is open (with the given initial
`f`), `g_score[start] = 0`. -/
noncomputable def initState (start : Pos) (f0 : ℝ) : SearchState :=
  { openSet := [(f0, 0, start)], cameFrom := [], gScore := [(start, 0)],
    closedL := [], counter := 0 }

/-- Segment cost of `astar_via_ramps` (`pathfinder_v5.py` lines 260–267):
`move_cost = dist + line_cost + ramp_bonus`, `none` when
`check_line_valid` rejects. -/
noncomputable def segCostV5 (tm : TerrainMap) (clusters : List Pos) (a b : Pos) :
    Option ℝ :=
  match checkLineValid tm a.1 a.2 b.1 b.2 with
  | none => none
  | some q => some (euclid a b + (q : ℝ) + ((rampBonus clusters b : ℚ) : ℝ))

/-- Configuration of `astar_via_ramps`: reconstruction seeds
`path = [goal, current]`. -/
noncomputable def cfgV5 (tm : TerrainMap) (clusters : List Pos) (stp : ℕ)
    (goal : Pos) : SearchCfg :=
  ⟨tm.width, tm.height, stp, goal, segCostV5 tm clusters, fun c => [goal, c]⟩

/-- `astar_via_ramps` from `pathfinder_v5.py` (lines 212–281).  The fuel
`2 + 9*(width*height + 1)` strictly exceeds the loop measure of the initial
state, and the termination theorem shows it is never exhausted. -/
noncomputable def astarViaRamps (tm : TerrainMap) (start goal : Pos)
    (clusters : List Pos) (stp : ℕ) (sels : ℕ → ℕ) : Option AStarRes :=
  astarLoop (cfgV5 tm clusters stp goal) sels (2 + 9 * (tm.width * tm.height + 1)) 0
    (initState start (euclid start goal))

/-- Segment cost of `a_star_pathfind` (`pathfinder_v2.py` lines 201–207):
`move_cost = move_dist * (1 + path_cost * 0.5)`, the neighbor being skipped
when `get_path_cost` is infinite. -/
noncomputable def segCostV2 (cm : CostMap) (a b : Pos) : Option ℝ :=
  match getPathCostV2 cm a.1 a.2 b.1 b.2 with
  | none => none
  | some q => some (euclid a b * (1 + (q : ℝ) * (1 / 2)))

/-- Configuration of `a_star_pathfind`: reconstruction seeds
`path = [current, goal]`. -/
noncomputable def cfgV2 (cm : CostMap) (stp : ℕ) (goal : Pos) : SearchCfg :=
  ⟨cm.width, cm.height, stp, goal, segCostV2 cm, fun c => [c, goal]⟩

/-- `a_star_pathfind` from `pathfinder_v2.py` (lines 155–219): the loop is
capped at `max_iterations = 500000`; both the cap exit and the exhausted
frontier return the explicit `None` (`AStarRes.noPath`). -/
noncomputable def astarPathfindV2 (cm : CostMap) (start goal : Pos) (stp : ℕ)
    (sels : ℕ → ℕ) : AStarRes :=
  (astarLoop (cfgV2 cm stp goal) sels 500000 0 (initState start 0)).getD
    AStarRes.noPath

lemma look_cons {β : Type} (k : Pos) (v : β) (l : List (Pos × β)) (p : Pos) :
    look ((k, v) :: l) p = if k = p then some v else look l p := rfl

lemma look_cons_isSome {β : Type} (k : Pos) (v : β) (l : List (Pos × β)) (p : Pos)
    (h : (look l p).isSome) : (look ((k, v) :: l) p).isSome := by
  rw [look_cons]
  by_cases hk : k = p
  · simp [hk]
  · simpa [hk] using h

/-- The predecessor chain the reconstruction walk follows: each node's
`came_from` entry is the next node, and the last node has none. -/
def chainFrom (came : List (Pos × Pos)) : Pos → List Pos → Prop
  | cur, [] => look came cur = none
  | cur, p :: rest => look came cur = some p ∧ chainFrom came p rest

lemma reconstruct_found_chain (came : List (Pos × Pos)) :
    ∀ fuel cur acc r, reconstruct came fuel cur acc = AStarRes.found r →
      ∃ chain, r = (acc ++ chain).reverse ∧ chainFrom came cur chain := by
  intro fuel
  induction fuel with
  | zero => intro cur acc r h; exact absurd h (by simp [reconstruct])
  | succ fuel ih =>
    intro cur acc r h
    rw [reconstruct] at h
    cases hl : look came cur with
    | none =>
      rw [hl] at h
      refine ⟨[], ?_, hl⟩
      simpa using (AStarRes.found.injEq _ _ ▸ h).symm
    | some p =>
      rw [hl] at h
      rcases ih p (acc ++ [p]) r h with ⟨chain, hr, hc⟩
      exact ⟨p :: chain, by simpa using hr, hl, hc⟩

lemma reconstruct_found_ne_nil (came : List (Pos × Pos)) :
    ∀ fuel cur acc r, acc ≠ [] → reconstruct came fuel cur acc = AStarRes.found r →
      r ≠ [] := by
  intro fuel cur acc r hacc h
  rcases reconstruct_found_chain came fuel cur acc r h with ⟨chain, hr, _⟩
  rw [hr]
  simp only [ne_eq, List.reverse_eq_nil_iff, List.append_eq_nil]
  rintro ⟨h1, _⟩
  exact hacc h1

/-- First-occurrence index of a position in a list (`l.length` when
absent); the closing order used by the ranking invariant. -/
def idxOf : List Pos → Pos → ℕ
  | [], _ => 0
  | a :: t, p => if a = p then 0 else idxOf t p + 1

lemma idxOf_lt_length (l : List Pos) (p : Pos) (h : p ∈ l) : idxOf l p < l.length := by
  induction l with
  | nil => cases h
  | cons a t ih =>
    rw [idxOf]
    by_cases ha : a = p
    · simp [ha]
    · rw [if_neg ha]
      have : p ∈ t := by
        rcases List.mem_cons.1 h with rfl | ht
        · exact absurd rfl ha
        · exact ht
      simpa [Nat.succ_lt_succ_iff] using ih this

lemma idxOf_eq_length (l : List Pos) (p : Pos) (h : p ∉ l) : idxOf l p = l.length := by
  induction l with
  | nil => rfl
  | cons a t ih =>
    rw [idxOf, if_neg (by intro hh; exact h (hh ▸ List.mem_cons_self a t))]
    rw [ih (fun ht => h (List.mem_cons_of_mem a ht))]
    rfl

lemma idxOf_append_of_mem (l l' : List Pos) (p : Pos) (h : p ∈ l) :
    idxOf (l ++ l') p = idxOf l p := by
  induction l with
  | nil => cases h
  | cons a t ih =>
    rw [List.cons_append, idxOf, idxOf]
    by_cases ha : a = p
    · simp [ha]
    · rw [if_neg ha, if_neg ha]
      have : p ∈ t := by
        rcases List.mem_cons.1 h with rfl | ht
        · exact absurd rfl ha
        · exact ht
      rw [ih this]

lemma idxOf_append_self (l : List Pos) (p : Pos) (h : p ∉ l) :
    idxOf (l ++ [p]) p = l.length := by
  induction l with
  | nil => simp [idxOf]
  | cons a t ih =>
    rw [List.cons_append, idxOf,
      if_neg (by intro hh; exact h (hh ▸ List.mem_cons_self a t))]
    rw [ih (fun ht => h (List.mem_cons_of_mem a ht))]
    rfl

/-- Fuel `closed.length + 1` never runs out: the ranking invariant makes
every chain step strictly descend in closing order. -/
lemma reconstruct_not_stuck (came : List (Pos × Pos)) (closed : List Pos)
    (hval : ∀ n p, look came n = some p → p ∈ closed)
    (hrank : ∀ n p, look came n = some p → n ∈ closed →
      idxOf closed p < idxOf closed n) :
    ∀ fuel cur acc,
      (if cur ∈ closed then idxOf closed cur else closed.length) + 1 ≤ fuel →
      reconstruct came fuel cur acc ≠ AStarRes.stuck := by
  intro fuel
  induction fuel with
  | zero => intro cur acc h; omega
  | succ fuel ih =>
    intro cur acc h
    rw [reconstruct]
    cases hl : look came cur with
    | none => simp
    | some p =>
      apply ih
      have hp : p ∈ closed := hval cur p hl
      have hplt : idxOf closed p < closed.length := idxOf_lt_length closed p hp
      by_cases hc : cur ∈ closed
      · have := hrank cur p hl hc
        simp only [hc, if_pos] at h
        simp only [hp, if_pos]
        omega
      · simp only [hc, if_neg, if_false] at h
        simp only [hp, if_pos]
        omega

lemma chainFrom_getLast (came : List (Pos × Pos)) (start : Pos)
    (hchain : ∀ n p, look came n = some p → p = start ∨ (look came p).isSome) :
    ∀ ch cur, chainFrom came cur ch →
      (cur = start ∨ (look came cur).isSome) →
      (cur :: ch).getLast? = some start := by
  intro ch
  induction ch with
  | nil =>
    intro cur hcf hok
    rcases hok with rfl | hs
    · rfl
    · rw [chainFrom] at hcf
      rw [hcf] at hs
      simp at hs
  | cons p rest ih =>
    intro cur hcf hok
    rcases hcf with ⟨hl, hcf'⟩
    rw [List.getLast?_cons_cons]
    exact ih p hcf' (hchain cur p hl)

lemma chainFrom_edges (came : List (Pos × Pos)) (P : Pos → Pos → Prop)
    (hedge : ∀ n p, look came n = some p → P p n) :
    ∀ ch cur, chainFrom came cur ch →
      List.Chain' (fun a b => P b a) (cur :: ch) := by
  intro ch
  induction ch with
  | nil => intro cur _; exact List.chain'_singleton cur
  | cons p rest ih =>
    intro cur hcf
    rcases hcf with ⟨hl, hcf'⟩
    exact List.chain'_cons.2 ⟨hedge cur p hl, ih p hcf'⟩

lemma chainFrom_mem (came : List (Pos × Pos)) (Q : Pos → Prop)
    (hq : ∀ n p, look came n = some p → Q p) :
    ∀ ch cur, chainFrom came cur ch → ∀ x ∈ ch, Q x := by
  intro ch
  induction ch with
  | nil => intro cur _ x hx; cases hx
  | cons p rest ih =>
    intro cur hcf x hx
    rcases hcf with ⟨hl, hcf'⟩
    rcases List.mem_cons.1 hx with rfl | hx'
    · exact hq cur x hl
    · exact ih p hcf' x hx'

/-- The loop invariants of the shared A* kernel: open entries are the
start or in-bounds; every open node (except the start) has a predecessor;
`came_from` values are closed, strictly earlier in closing order than their
(closed) keys, chase back to the start, and each recorded edge was
validated by the segment cost. -/
structure SearchInv (cfg : SearchCfg) (start : Pos) (s : SearchState) : Prop where
  openOk : ∀ e ∈ s.openSet, e.2.2 = start ∨ posInB cfg.width cfg.height e.2.2
  openChain : ∀ e ∈ s.openSet, e.2.2 = start ∨ (look s.cameFrom e.2.2).isSome
  cameClosed : ∀ n p, look s.cameFrom n = some p → p ∈ s.closedL
  cameRank : ∀ n p, look s.cameFrom n = some p → n ∈ s.closedL →
    idxOf s.closedL p < idxOf s.closedL n
  cameChain : ∀ n p, look s.cameFrom n = some p →
    p = start ∨ (look s.cameFrom p).isSome
  cameEdge : ∀ n p, look s.cameFrom n = some p → (cfg.segCost p n).isSome
  cameOk : ∀ n p, look s.cameFrom n = some p →
    (p = start ∨ posInB cfg.width cfg.height p) ∧
    (n = start ∨ posInB cfg.width cfg.height n)

lemma initState_inv (cfg : SearchCfg) (start : Pos) (f0 : ℝ) :
    SearchInv cfg start (initState start f0) := by
  refine ⟨?_, ?_, ?_, ?_, ?_, ?_, ?_⟩ <;>
    first
    | (intro e he
       rcases List.mem_singleton.1 he with rfl
       exact Or.inl rfl)
    | (intro n p h
       exact absurd h (by simp [initState, look]))

/-- Auxiliary facts carried through one node's expansion. -/
structure ExpandCtx (cfg : SearchCfg) (start current : Pos) (s : SearchState) : Prop where
  inv : SearchInv cfg start s
  curClosed : current ∈ s.closedL
  curOk : current = start ∨ posInB cfg.width cfg.height current
  curChain : current = start ∨ (look s.cameFrom current).isSome

/-- `expandOne` either leaves the state unchanged or conses a pushed
entry, predecessor and cost for a not-closed neighbor with a validated
segment. -/
lemma expandOne_cases (cfg : SearchCfg) (current : Pos) (s : SearchState) (n : Pos) :
    expandOne cfg current s n = s ∨
    (n ∉ s.closedL ∧ ∃ mc, cfg.segCost current n = some mc ∧ ∃ tg : ℝ,
      expandOne cfg current s n =
        { openSet := (tg + euclid n cfg.goal, s.counter + 1, n) :: s.openSet,
          cameFrom := (n, current) :: s.cameFrom,
          gScore := (n, tg) :: s.gScore,
          closedL := s.closedL,
          counter := s.counter + 1 }) := by
  rw [expandOne]
  by_cases hmem : n ∈ s.closedL
  · rw [if_pos hmem]
    exact Or.inl rfl
  · rw [if_neg hmem]
    cases hseg : cfg.segCost current n with
    | none => exact Or.inl rfl
    | some mc =>
      dsimp only
      by_cases himp : (match look s.gScore n with
        | none => True
        | some gn => ((look s.gScore current).getD 0) + mc < gn)
      · rw [dif_pos himp]
        exact Or.inr ⟨hmem, mc, rfl, _, rfl⟩
      · rw [dif_neg himp]
        exact Or.inl rfl

lemma expandOne_ctx (cfg : SearchCfg) (start current : Pos) (s : SearchState)
    (n : Pos) (hn : posInB cfg.width cfg.height n)
    (hctx : ExpandCtx cfg start current s) :
    ExpandCtx cfg start current (expandOne cfg current s n) ∧
    (expandOne cfg current s n).closedL = s.closedL ∧
    (expandOne cfg current s n).openSet.length ≤ s.openSet.length + 1 := by
  rcases expandOne_cases cfg current s n with heq | ⟨hnot, mc, hseg, tg, heq⟩
  · rw [heq]
    exact ⟨hctx, rfl, by omega⟩
  · rw [heq]
    obtain ⟨hinv, hclosed, hok, hchain⟩ := hctx
    refine ⟨⟨⟨?_, ?_, ?_, ?_, ?_, ?_, ?_⟩, hclosed, hok, ?_⟩, rfl, by simp⟩
    · intro e he
      rcases List.mem_cons.1 he with rfl | he'
      · exact Or.inr hn
      · exact hinv.openOk e he'
    · intro e he
      rcases List.mem_cons.1 he with rfl | he'
      · refine Or.inr ?_
        rw [look_cons, if_pos rfl]
        rfl
      · rcases hinv.openChain e he' with hs | hs
        · exact Or.inl hs
        · exact Or.inr (look_cons_isSome _ _ _ _ hs)
    · intro m p hm
      rw [look_cons] at hm
      by_cases hnm : n = m
      · rw [if_pos hnm] at hm
        cases hm
        exact hclosed
      · rw [if_neg hnm] at hm
        exact hinv.cameClosed m p hm
    · intro m p hm hmc
      rw [look_cons] at hm
      by_cases hnm : n = m
      · rw [if_pos hnm] at hm
        exact absurd (hnm ▸ hmc) hnot
      · rw [if_neg hnm] at hm
        exact hinv.cameRank m p hm hmc
    · intro m p hm
      rw [look_cons] at hm
      by_cases hnm : n = m
      · rw [if_pos hnm] at hm
        cases hm
        rcases hchain with hs | hs
        · exact Or.inl hs
        · exact Or.inr (look_cons_isSome _ _ _ _ hs)
      · rw [if_neg hnm] at hm
        rcases hinv.cameChain m p hm with hs | hs
        · exact Or.inl hs
        · exact Or.inr (look_cons_isSome _ _ _ _ hs)
    · intro m p hm
      rw [look_cons] at hm
      by_cases hnm : n = m
      · rw [if_pos hnm] at hm
        cases hm
        rw [← hnm]
        rw [hseg]
        rfl
      · rw [if_neg hnm] at hm
        exact hinv.cameEdge m p hm
    · intro m p hm
      rw [look_cons] at hm
      by_cases hnm : n = m
      · rw [if_pos hnm] at hm
        cases hm
        exact ⟨hok, Or.inr (hnm ▸ hn)⟩
      · rw [if_neg hnm] at hm
        exact hinv.cameOk m p hm
    · rcases hchain with hs | hs
      · exact Or.inl hs
      · exact Or.inr (look_cons_isSome _ _ _ _ hs)

lemma neighborsOf_inB (w h stp : ℕ) (p : Pos) :
    ∀ n ∈ neighborsOf w h stp p, posInB w h n := by
  intro n hn
  rcases List.mem_filter.1 hn with ⟨_, hd⟩
  exact of_decide_eq_true hd

lemma neighborsOf_length_le (w h stp : ℕ) (p : Pos) :
    (neighborsOf w h stp p).length ≤ 8 := by
  have h1 := List.length_filter_le
    (fun q => decide (posInB w h q))
    (([(-(stp : ℤ), (0 : ℤ)), ((stp : ℤ), 0), (0, -(stp : ℤ)), (0, (stp : ℤ)),
       (-(stp : ℤ), -(stp : ℤ)), (-(stp : ℤ), (stp : ℤ)),
       ((stp : ℤ), -(stp : ℤ)), ((stp : ℤ), (stp : ℤ))]).map
      (fun d => (p.1 + d.1, p.2 + d.2)))
  simpa [neighborsOf] using h1

lemma expandAll_fold_ctx (cfg : SearchCfg) (start current : Pos) :
    ∀ (ns : List Pos), (∀ n ∈ ns, posInB cfg.width cfg.height n) →
      ∀ s, ExpandCtx cfg start current s →
        ExpandCtx cfg start current (ns.foldl (expandOne cfg current) s) ∧
        (ns.foldl (expandOne cfg current) s).closedL = s.closedL ∧
        (ns.foldl (expandOne cfg current) s).openSet.length ≤
          s.openSet.length + ns.length := by
  intro ns
  induction ns with
  | nil => intro _ s hctx; exact ⟨hctx, rfl, by simp⟩
  | cons n t ih =>
    intro hns s hctx
    have h1 := expandOne_ctx cfg start current s n (hns n (List.mem_cons_self n t)) hctx
    have h2 := ih (fun m hm => hns m (List.mem_cons_of_mem n hm)) _ h1.1
    refine ⟨h2.1, ?_, ?_⟩
    · rw [List.foldl_cons, h2.2.1, h1.2.1]
    · rw [List.foldl_cons]
      have := h2.2.2
      have := h1.2.2
      simp only [List.length_cons]
      omega

lemma expandAll_ctx (cfg : SearchCfg) (start current : Pos) (s : SearchState)
    (hctx : ExpandCtx cfg start current s) :
    ExpandCtx cfg start current (expandAll cfg current s) ∧
    (expandAll cfg current s).closedL = s.closedL ∧
    (expandAll cfg current s).openSet.length ≤ s.openSet.length + 8 := by
  rw [expandAll]
  have h := expandAll_fold_ctx cfg start current
    (neighborsOf cfg.width cfg.height cfg.stp current)
    (neighborsOf_inB cfg.width cfg.height cfg.stp current) s hctx
  have hlen := neighborsOf_length_le cfg.width cfg.height cfg.stp current
  exact ⟨h.1, h.2.1, by have := h.2.2; omega⟩

lemma popped_mem (s : SearchState) (sel : ℕ) (hne : s.openSet ≠ []) :
    s.openSet.getD (sel % s.openSet.length) defaultEntry ∈ s.openSet := by
  have hlen : 0 < s.openSet.length := List.length_pos.2 hne
  have hidx : sel % s.openSet.length < s.openSet.length := Nat.mod_lt _ hlen
  rw [List.getD_eq_getElem _ _ hidx]
  exact List.getElem_mem _

lemma astarStep_nil (cfg : SearchCfg) (sel : ℕ) (s : SearchState)
    (h : s.openSet = []) : astarStep cfg sel s = StepRes.done AStarRes.noPath := by
  rw [astarStep, if_pos (by rw [h]; rfl)]

lemma astarStep_closed (cfg : SearchCfg) (sel : ℕ) (s : SearchState)
    (hne : s.openSet ≠ [])
    (hc : (s.openSet.getD (sel % s.openSet.length) defaultEntry).2.2 ∈ s.closedL) :
    astarStep cfg sel s =
      StepRes.cont { s with openSet := s.openSet.eraseIdx (sel % s.openSet.length) } := by
  have hne2 : ¬ s.openSet.isEmpty = true := by simpa [List.isEmpty_iff] using hne
  simp only [astarStep, if_neg hne2, if_pos hc]

lemma astarStep_goal (cfg : SearchCfg) (sel : ℕ) (s : SearchState)
    (hne : s.openSet ≠ [])
    (hc : (s.openSet.getD (sel % s.openSet.length) defaultEntry).2.2 ∉ s.closedL)
    (hg : goalNear cfg.goal cfg.stp
      (s.openSet.getD (sel % s.openSet.length) defaultEntry).2.2) :
    astarStep cfg sel s =
      StepRes.done (reconstruct s.cameFrom (s.closedL.length + 1)
        ((s.openSet.getD (sel % s.openSet.length) defaultEntry).2.2)
        (cfg.recInit ((s.openSet.getD (sel % s.openSet.length) defaultEntry).2.2))) := by
  have hne2 : ¬ s.openSet.isEmpty = true := by simpa [List.isEmpty_iff] using hne
  simp only [astarStep, if_neg hne2, if_neg hc, if_pos hg]

lemma astarStep_expand (cfg : SearchCfg) (sel : ℕ) (s : SearchState)
    (hne : s.openSet ≠ [])
    (hc : (s.openSet.getD (sel % s.openSet.length) defaultEntry).2.2 ∉ s.closedL)
    (hg : ¬ goalNear cfg.goal cfg.stp
      (s.openSet.getD (sel % s.openSet.length) defaultEntry).2.2) :
    astarStep cfg sel s =
      StepRes.cont (expandAll cfg
        ((s.openSet.getD (sel % s.openSet.length) defaultEntry).2.2)
        { s with openSet := s.openSet.eraseIdx (sel % s.openSet.length),
                 closedL := s.closedL ++
                   [(s.openSet.getD (sel % s.openSet.length) defaultEntry).2.2] }) := by
  have hne2 : ¬ s.openSet.isEmpty = true := by simpa [List.isEmpty_iff] using hne
  simp only [astarStep, if_neg hne2, if_neg hc, if_neg hg]

lemma eraseIdx_mem {α : Type} (l : List α) (i : ℕ) (a : α)
    (h : a ∈ l.eraseIdx i) : a ∈ l :=
  (List.eraseIdx_sublist l i).mem h

/-- Invariant preservation through one continued loop iteration. -/
lemma astarStep_cont_inv (cfg : SearchCfg) (start : Pos) (sel : ℕ)
    (s s2 : SearchState) (hinv : SearchInv cfg start s)
    (h : astarStep cfg sel s = StepRes.cont s2) : SearchInv cfg start s2 := by
  by_cases hne : s.openSet = []
  · rw [astarStep_nil cfg sel s hne] at h
    cases h
  · by_cases hc : (s.openSet.getD (sel % s.openSet.length) defaultEntry).2.2 ∈ s.closedL
    · rw [astarStep_closed cfg sel s hne hc] at h
      cases h
      refine ⟨?_, ?_, hinv.cameClosed, hinv.cameRank, hinv.cameChain,
        hinv.cameEdge, hinv.cameOk⟩
      · intro e he
        exact hinv.openOk e (eraseIdx_mem _ _ _ he)
      · intro e he
        exact hinv.openChain e (eraseIdx_mem _ _ _ he)
    · by_cases hg : goalNear cfg.goal cfg.stp
        (s.openSet.getD (sel % s.openSet.length) defaultEntry).2.2
      · rw [astarStep_goal cfg sel s hne hc hg] at h
        cases h
      · rw [astarStep_expand cfg sel s hne hc hg] at h
        cases h
        set cur := (s.openSet.getD (sel % s.openSet.length) defaultEntry).2.2 with hcd
        have hcurok : cur = start ∨ posInB cfg.width cfg.height cur :=
          hinv.openOk _ (popped_mem s sel hne)
        have hcurch : cur = start ∨ (look s.cameFrom cur).isSome :=
          hinv.openChain _ (popped_mem s sel hne)
        refine (expandAll_ctx cfg start cur
          { s with openSet := s.openSet.eraseIdx (sel % s.openSet.length),
                   closedL := s.closedL ++ [cur] }
          ⟨⟨?_, ?_, ?_, ?_, hinv.cameChain,
            hinv.cameEdge, hinv.cameOk⟩, ?_, hcurok, hcurch⟩).1.inv
        · intro e he
          exact hinv.openOk e (eraseIdx_mem _ _ _ he)
        · intro e he
          exact hinv.openChain e (eraseIdx_mem _ _ _ he)
        · intro n p hm
          exact List.mem_append_left _ (hinv.cameClosed n p hm)
        · intro n p hm hn
          have hp : p ∈ s.closedL := hinv.cameClosed n p hm
          rcases List.mem_append.1 hn with hn' | hn'
          · rw [idxOf_append_of_mem _ _ _ hp, idxOf_append_of_mem _ _ _ hn']
            exact hinv.cameRank n p hm hn'
          · rcases List.mem_singleton.1 hn' with rfl
            rw [idxOf_append_of_mem _ _ _ hp, idxOf_append_self _ _ hc]
            exact idxOf_lt_length _ _ hp
        · exact List.mem_append_right _ (List.mem_singleton.2 rfl)

/-- One expansion never touches a closed node's `g_score` or `came_from`
entry (the neighbor loop skips closed nodes), and never changes the closed
list. -/
lemma expandOne_freeze (cfg : SearchCfg) (current : Pos) (s : SearchState)
    (n pos : Pos) (hpos : pos ∈ s.closedL) :
    (expandOne cfg current s n).closedL = s.closedL ∧
    look (expandOne cfg current s n).gScore pos = look s.gScore pos ∧
    look (expandOne cfg current s n).cameFrom pos = look s.cameFrom pos := by
  rcases expandOne_cases cfg current s n with heq | ⟨hnot, mc, hseg, tg, heq⟩
  · rw [heq]
    exact ⟨rfl, rfl, rfl⟩
  · rw [heq]
    have hnp : n ≠ pos := fun hh => hnot (hh ▸ hpos)
    refine ⟨rfl, ?_, ?_⟩ <;> (rw [look_cons, if_neg hnp])

lemma expandAll_fold_freeze (cfg : SearchCfg) (current : Pos) (pos : Pos) :
    ∀ (ns : List Pos) (s : SearchState), pos ∈ s.closedL →
      (ns.foldl (expandOne cfg current) s).closedL = s.closedL ∧
      look (ns.foldl (expandOne cfg current) s).gScore pos = look s.gScore pos ∧
      look (ns.foldl (expandOne cfg current) s).cameFrom pos = look s.cameFrom pos := by
  intro ns
  induction ns with
  | nil => intro s _; exact ⟨rfl, rfl, rfl⟩
  | cons n t ih =>
    intro s hpos
    have h1 := expandOne_freeze cfg current s n pos hpos
    have h2 := ih (expandOne cfg current s n) (h1.1 ▸ hpos)
    rw [List.foldl_cons]
    exact ⟨h2.1.trans h1.1, h2.2.1.trans h1.2.1, h2.2.2.trans h1.2.2⟩

/-- One continued iteration extends the closed list only with nodes that
were not already closed, and freezes the `g_score` and `came_from` entries
of every closed node. -/
lemma astarStep_cont_freeze (cfg : SearchCfg) (sel : ℕ) (s s2 : SearchState)
    (pos : Pos) (h : astarStep cfg sel s = StepRes.cont s2)
    (hpos : pos ∈ s.closedL) :
    (∃ ext, s2.closedL = s.closedL ++ ext ∧ pos ∉ ext) ∧
    look s2.gScore pos = look s.gScore pos ∧
    look s2.cameFrom pos = look s.cameFrom pos := by
  by_cases hne : s.openSet = []
  · rw [astarStep_nil cfg sel s hne] at h
    cases h
  · by_cases hc : (s.openSet.getD (sel % s.openSet.length) defaultEntry).2.2 ∈ s.closedL
    · rw [astarStep_closed cfg sel s hne hc] at h
      cases h
      exact ⟨⟨[], by simp, by simp⟩, rfl, rfl⟩
    · by_cases hg : goalNear cfg.goal cfg.stp
        (s.openSet.getD (sel % s.openSet.length) defaultEntry).2.2
      · rw [astarStep_goal cfg sel s hne hc hg] at h
        cases h
      · rw [astarStep_expand cfg sel s hne hc hg] at h
        cases h
        set cur := (s.openSet.getD (sel % s.openSet.length) defaultEntry).2.2 with hcd
        have hne2 : pos ∈ s.closedL ++ [cur] := List.mem_append_left _ hpos
        have hfr := expandAll_fold_freeze cfg cur pos
          (neighborsOf cfg.width cfg.height cfg.stp cur)
          { s with openSet := s.openSet.eraseIdx (sel % s.openSet.length),
                   closedL := s.closedL ++ [cur] } hne2
        refine ⟨⟨[cur], ?_, ?_⟩, ?_, ?_⟩
        · rw [expandAll] at *
          exact hfr.1
        · simp only [List.mem_singleton]
          intro hh
          exact hc (hh ▸ hpos)
        · rw [expandAll] at *
          exact hfr.2.1
        · rw [expandAll] at *
          exact hfr.2.2

/-- All grid positions, the candidate nodes of the search together with
the start. -/
def gridPts (w h : ℕ) : List Pos :=
  (List.range w).flatMap fun (x : ℕ) =>
    (List.range h).map fun (y : ℕ) => ((x : ℤ), (y : ℤ))

lemma mem_gridPts (w h : ℕ) (p : Pos) : p ∈ gridPts w h ↔ posInB w h p := by
  rcases p with ⟨a, b⟩
  constructor
  · intro hmem
    rcases List.mem_flatMap.1 hmem with ⟨x, hx, hmem2⟩
    rcases List.mem_map.1 hmem2 with ⟨y, hy, heq⟩
    cases heq
    have hx' := List.mem_range.1 hx
    have hy' := List.mem_range.1 hy
    refine ⟨?_, ?_, ?_, ?_⟩
    · show (0 : ℤ) ≤ (x : ℤ)
      exact Int.natCast_nonneg x
    · show ((x : ℕ) : ℤ) < (w : ℤ)
      exact_mod_cast hx'
    · show (0 : ℤ) ≤ (y : ℤ)
      exact Int.natCast_nonneg y
    · show ((y : ℕ) : ℤ) < (h : ℤ)
      exact_mod_cast hy'
  · rintro ⟨h1, h2, h3, h4⟩
    refine List.mem_flatMap.2 ⟨a.toNat, List.mem_range.2 (by omega),
      List.mem_map.2 ⟨b.toNat, List.mem_range.2 (by omega), ?_⟩⟩
    have ha : ((a.toNat : ℕ) : ℤ) = a := by omega
    have hb : ((b.toNat : ℕ) : ℤ) = b := by omega
    rw [ha, hb]

/-- Loop measure: open entries count plus 9 per not-yet-closed candidate
node; each continued iteration strictly decreases it. -/
def measureOf (w h : ℕ) (start : Pos) (s : SearchState) : ℕ :=
  s.openSet.length +
    9 * ((start :: gridPts w h).filter fun p => decide (p ∉ s.closedL)).length

lemma filter_notMem_mono (t cl : List Pos) (c : Pos) :
    (t.filter fun p => decide (p ∉ cl ++ [c])).length ≤
      (t.filter fun p => decide (p ∉ cl)).length := by
  rw [← List.countP_eq_length_filter, ← List.countP_eq_length_filter]
  apply List.countP_mono_left
  intro a _ h
  simp only [decide_eq_true_eq] at h ⊢
  intro hmem
  exact h (List.mem_append_left _ hmem)

lemma filter_notMem_lt (L : List Pos) (cl : List Pos) (c : Pos)
    (hcL : c ∈ L) (hc : c ∉ cl) :
    (L.filter fun p => decide (p ∉ cl ++ [c])).length <
      (L.filter fun p => decide (p ∉ cl)).length := by
  induction L with
  | nil => cases hcL
  | cons a t ih =>
    rw [List.filter_cons, List.filter_cons]
    by_cases hac : a = c
    · subst hac
      rw [if_neg (by simp), if_pos (by simpa using hc)]
      simp only [List.length_cons]
      exact Nat.lt_succ_of_le (filter_notMem_mono t cl a)
    · have hct : c ∈ t := by
        rcases List.mem_cons.1 hcL with rfl | hh
        · exact absurd rfl hac
        · exact hh
      by_cases hacl : a ∈ cl
      · rw [if_neg (by simp [hacl]), if_neg (by simp [hacl])]
        exact ih hct
      · rw [if_pos (by simp [hacl, hac]), if_pos (by simp [hacl])]
        simp only [List.length_cons]
        exact Nat.succ_lt_succ (ih hct)

lemma astarStep_cont_measure (cfg : SearchCfg) (start : Pos) (sel : ℕ)
    (s s2 : SearchState) (hinv : SearchInv cfg start s)
    (h : astarStep cfg sel s = StepRes.cont s2) :
    measureOf cfg.width cfg.height start s2 <
      measureOf cfg.width cfg.height start s := by
  by_cases hne : s.openSet = []
  · rw [astarStep_nil cfg sel s hne] at h
    cases h
  · have hlen : 0 < s.openSet.length := List.length_pos.2 hne
    have hidx : sel % s.openSet.length < s.openSet.length := Nat.mod_lt _ hlen
    have herase : (s.openSet.eraseIdx (sel % s.openSet.length)).length =
        s.openSet.length - 1 := List.length_eraseIdx_of_lt hidx
    by_cases hc : (s.openSet.getD (sel % s.openSet.length) defaultEntry).2.2 ∈ s.closedL
    · rw [astarStep_closed cfg sel s hne hc] at h
      cases h
      simp only [measureOf, herase]
      omega
    · by_cases hg : goalNear cfg.goal cfg.stp
        (s.openSet.getD (sel % s.openSet.length) defaultEntry).2.2
      · rw [astarStep_goal cfg sel s hne hc hg] at h
        cases h
      · rw [astarStep_expand cfg sel s hne hc hg] at h
        cases h
        set cur := (s.openSet.getD (sel % s.openSet.length) defaultEntry).2.2 with hcd
        have hcurok : cur = start ∨ posInB cfg.width cfg.height cur :=
          hinv.openOk _ (popped_mem s sel hne)
        have hcurmem : cur ∈ start :: gridPts cfg.width cfg.height := by
          rcases hcurok with rfl | hin
          · exact List.mem_cons_self _ _
          · exact List.mem_cons_of_mem _ ((mem_gridPts _ _ _).2 hin)
        set s1 : SearchState :=
          { s with openSet := s.openSet.eraseIdx (sel % s.openSet.length),
                   closedL := s.closedL ++ [cur] } with hs1
        have hcurch : cur = start ∨ (look s.cameFrom cur).isSome :=
          hinv.openChain _ (popped_mem s sel hne)
        have hctx : ExpandCtx cfg start cur s1 := by
          refine ⟨⟨?_, ?_, ?_, ?_, hinv.cameChain, hinv.cameEdge, hinv.cameOk⟩,
            List.mem_append_right _ (List.mem_singleton.2 rfl), hcurok, hcurch⟩
          · intro e he
            exact hinv.openOk e (eraseIdx_mem _ _ _ he)
          · intro e he
            exact hinv.openChain e (eraseIdx_mem _ _ _ he)
          · intro n p hm
            exact List.mem_append_left _ (hinv.cameClosed n p hm)
          · intro n p hm hn
            have hp : p ∈ s.closedL := hinv.cameClosed n p hm
            rcases List.mem_append.1 hn with hn' | hn'
            · rw [idxOf_append_of_mem _ _ _ hp, idxOf_append_of_mem _ _ _ hn']
              exact hinv.cameRank n p hm hn'
            · rcases List.mem_singleton.1 hn' with rfl
              rw [idxOf_append_of_mem _ _ _ hp, idxOf_append_self _ _ hc]
              exact idxOf_lt_length _ _ hp
        have hall := expandAll_ctx cfg start cur s1 hctx
        have hclosed1 : s1.closedL = s.closedL ++ [cur] := rfl
        have hopen1 : s1.openSet.length = s.openSet.length - 1 := by
          rw [show s1.openSet = s.openSet.eraseIdx (sel % s.openSet.length) from rfl,
            herase]
        have hulen : ((start :: gridPts cfg.width cfg.height).filter
              fun p => decide (p ∉ s.closedL ++ [cur])).length <
            ((start :: gridPts cfg.width cfg.height).filter
              fun p => decide (p ∉ s.closedL)).length :=
          filter_notMem_lt (start :: gridPts cfg.width cfg.height)
            s.closedL cur hcurmem hc
        have hopen2 : (expandAll cfg cur s1).openSet.length ≤
            s.openSet.length - 1 + 8 := by
          have := hall.2.2
          omega
        have hcl2 : (expandAll cfg cur s1).closedL = s1.closedL := hall.2.1
        have h22 := hall.2.2
        simp only [measureOf, hcl2, hclosed1]
        omega

/-- Sufficient fuel: the loop completes (returns `some`) whenever the fuel
strictly exceeds the measure. -/
lemma astarLoop_isSome (cfg : SearchCfg) (start : Pos) (sels : ℕ → ℕ) :
    ∀ fuel k s, SearchInv cfg start s →
      measureOf cfg.width cfg.height start s < fuel →
      (astarLoop cfg sels fuel k s).isSome := by
  intro fuel
  induction fuel with
  | zero => intro k s _ h; omega
  | succ fuel ih =>
    intro k s hinv hm
    rw [astarLoop]
    cases hstep : astarStep cfg (sels k) s with
    | done r => simp
    | cont s2 =>
      simp only []
      refine ih (k + 1) s2 (astarStep_cont_inv cfg start (sels k) s s2 hinv hstep) ?_
      have := astarStep_cont_measure cfg start (sels k) s s2 hinv hstep
      omega

/-- Every `some` result of the loop is either the explicit `noPath` or the
reconstruction at some reached state satisfying the invariants, from a
popped node inside the goal region. -/
lemma astarLoop_result (cfg : SearchCfg) (start : Pos) (sels : ℕ → ℕ) :
    ∀ fuel k s r, SearchInv cfg start s →
      astarLoop cfg sels fuel k s = some r →
      r = AStarRes.noPath ∨
      ∃ (s2 : SearchState) (current : Pos), SearchInv cfg start s2 ∧
        (current = start ∨ posInB cfg.width cfg.height current) ∧
        (current = start ∨ (look s2.cameFrom current).isSome) ∧
        goalNear cfg.goal cfg.stp current ∧
        r = reconstruct s2.cameFrom (s2.closedL.length + 1) current
          (cfg.recInit current) := by
  intro fuel
  induction fuel with
  | zero => intro k s r _ h; exact absurd h (by simp [astarLoop])
  | succ fuel ih =>
    intro k s r hinv h
    rw [astarLoop] at h
    cases hstep : astarStep cfg (sels k) s with
    | done r0 =>
      rw [hstep] at h
      simp only [Option.some.injEq] at h
      subst h
      by_cases hne : s.openSet = []
      · rw [astarStep_nil cfg (sels k) s hne] at hstep
        cases hstep
        exact Or.inl rfl
      · by_cases hc : (s.openSet.getD ((sels k) % s.openSet.length)
            defaultEntry).2.2 ∈ s.closedL
        · rw [astarStep_closed cfg (sels k) s hne hc] at hstep
          cases hstep
        · by_cases hg : goalNear cfg.goal cfg.stp
            (s.openSet.getD ((sels k) % s.openSet.length) defaultEntry).2.2
          · rw [astarStep_goal cfg (sels k) s hne hc hg] at hstep
            cases hstep
            exact Or.inr ⟨s, _, hinv,
              hinv.openOk _ (popped_mem s (sels k) hne),
              hinv.openChain _ (popped_mem s (sels k) hne), hg, rfl⟩
          · rw [astarStep_expand cfg (sels k) s hne hc hg] at hstep
            cases hstep
    | cont s2 =>
      rw [hstep] at h
      exact ih (k + 1) s2 r
        (astarStep_cont_inv cfg start (sels k) s s2 hinv hstep) h

/-- The decoded input image: a `width × height` grid of RGB triples,
`pix x y` being `pixels[y, x]`. -/
structure PixelGrid where
  width : ℕ
  height : ℕ
  pix : ℤ → ℤ → ℤ × ℤ × ℤ

/-- The pixel scan of `load_image` (`pathfinder_v5.py` lines 104–115): the
positions `(x, y)`, in the scan's row-major order, whose pixel classifies
as the given category. -/
def pointsOf (g : PixelGrid) (t : Terrain) : List Pos :=
  (((List.range g.height).flatMap fun (y : ℕ) =>
      (List.range g.width).map fun (x : ℕ) => ((x : ℤ), (y : ℤ))).filter
    fun p => decide (classifyPixel (g.pix p.1 p.2).1 (g.pix p.1 p.2).2.1
      (g.pix p.1 p.2).2.2 = t))

/-- Marker centre (`pathfinder_v5.py` lines 121–127): `None` when no pixel
of the category exists, else the floor-divided centroid (Python `//`; the
summed coordinates are nonnegative, so floor and truncating division
agree). -/
def centroid (pts : List Pos) : Option Pos :=
  match pts with
  | [] => none
  | _ :: _ => some (((pts.map Prod.fst).sum.fdiv (pts.length : ℤ)),
      ((pts.map Prod.snd).sum.fdiv (pts.length : ℤ)))

/-- The classified terrain grid built by `load_image`
(`pathfinder_v5.py` lines 99–108). -/
def buildTerrain (g : PixelGrid) : TerrainMap :=
  ⟨g.width, g.height, fun x y =>
    classifyPixel (g.pix x y).1 (g.pix x y).2.1 (g.pix x y).2.2⟩

/-- `cluster_ramps` (`pathfinder_v5.py` lines 138–166): greedy clustering
of the ramp pixels; for each unused seed, the cluster is the seed plus all
still-unused positions within the 50-pixel box, and its floor-divided
centre is recorded.  (The scan positions are pairwise distinct, so adding
the cluster to `used` as a block is exactly the source's incremental
`used.add`.) -/
def clusterRampsGo (all : List Pos) : List Pos → List Pos → List Pos → List Pos
  | [], _, acc => acc
  | p :: rest, used, acc =>
    if p ∈ used then clusterRampsGo all rest used acc
    else
      let nearby := all.filter fun q =>
        decide (q ∉ used ∧ q ≠ p ∧ |q.1 - p.1| < 50 ∧ |q.2 - p.2| < 50)
      let cluster := p :: nearby
      let cx := ((cluster.map Prod.fst).sum).fdiv (cluster.length : ℤ)
      let cy := ((cluster.map Prod.snd).sum).fdiv (cluster.length : ℤ)
      clusterRampsGo all rest (used ++ cluster) (acc ++ [(cx, cy)])

/-- `cluster_ramps` entry point (threshold 50). -/
def clusterRamps (positions : List Pos) : List Pos :=
  clusterRampsGo positions positions [] []

/-- Outcome of one full `main` run of `pathfinder_v5.py`. -/
inductive RunOutcome where
  | missingMarker
  | noPath
  | found (p : List Pos)
  | fuelOut
  | stuck
  deriving DecidableEq

/-- `main` from `pathfinder_v5.py` (lines 325–354): load and classify,
report a missing marker (and run no search) when either centre is `None`,
otherwise search with `step=6` and smooth the found path.  `fuelOut` and
`stuck` are the model-internal impossible outcomes. -/
noncomputable def mainV5 (g : PixelGrid) (sels : ℕ → ℕ) : RunOutcome :=
  match centroid (pointsOf g START), centroid (pointsOf g END) with
  | none, _ => RunOutcome.missingMarker
  | some _, none => RunOutcome.missingMarker
  | some s, some e =>
    match astarViaRamps (buildTerrain g) s e (clusterRamps (pointsOf g RAMP)) 6 sels with
    | none => RunOutcome.fuelOut
    | some AStarRes.noPath => RunOutcome.noPath
    | some AStarRes.stuck => RunOutcome.stuck
    | some (AStarRes.found p) => RunOutcome.found (smoothPath (buildTerrain g) p)

end SearchKernel

lemma gridPts_length (w h : ℕ) : (gridPts w h).length = w * h := by
  rw [gridPts, List.length_flatMap]
  have : (List.map (List.length ∘ fun (x : ℕ) =>
      (List.range h).map fun (y : ℕ) => ((x : ℤ), (y : ℤ))) (List.range w)) =
      (List.range w).map fun _ => h := by
    apply List.map_congr_left
    intro x _
    simp
  rw [this]
  simp [List.map_const', List.sum_replicate, smul_eq_mul]

lemma initState_measure (w h : ℕ) (start : Pos) (f0 : ℝ) :
    measureOf w h start (initState start f0) = 1 + 9 * (w * h + 1) := by
  rw [measureOf]
  have h1 : (initState start f0).openSet.length = 1 := rfl
  have h2 : (initState start f0).closedL = [] := rfl
  rw [h1, h2]
  have h3 : ((start :: gridPts w h).filter fun p => decide (p ∉ ([] : List Pos))) =
      start :: gridPts w h :=
    List.filter_eq_self.2 (fun a _ => by simp)
  rw [h3]
  simp only [List.length_cons, gridPts_length w h]

/-- Shared corollary: under the chosen fuel the v5 search always returns
a `some`, and never `stuck`. -/
lemma astarViaRamps_some_not_stuck (tm : TerrainMap) (start goal : Pos)
    (clusters : List Pos) (stp : ℕ) (sels : ℕ → ℕ) :
    ∃ r, astarViaRamps tm start goal clusters stp sels = some r ∧
      r ≠ AStarRes.stuck := by
  have hinv := initState_inv (cfgV5 tm clusters stp goal) start (euclid start goal)
  have hm : measureOf (cfgV5 tm clusters stp goal).width
      (cfgV5 tm clusters stp goal).height start
      (initState start (euclid start goal)) < 2 + 9 * (tm.width * tm.height + 1) := by
    have := initState_measure tm.width tm.height start (euclid start goal)
    have hw : (cfgV5 tm clusters stp goal).width = tm.width := rfl
    have hh : (cfgV5 tm clusters stp goal).height = tm.height := rfl
    rw [hw, hh, this]
    omega
  have hsome := astarLoop_isSome (cfgV5 tm clusters stp goal) start sels
    (2 + 9 * (tm.width * tm.height + 1)) 0 (initState start (euclid start goal))
    hinv hm
  rcases Option.isSome_iff_exists.1 hsome with ⟨r, hr⟩
  refine ⟨r, hr, ?_⟩
  rcases astarLoop_result (cfgV5 tm clusters stp goal) start sels _ 0 _ r hinv hr
    with h1 | ⟨s2, cur, hinv2, _, _, _, hrec⟩
  · rw [h1]
    simp
  · rw [hrec]
    apply reconstruct_not_stuck s2.cameFrom s2.closedL hinv2.cameClosed
      hinv2.cameRank
    by_cases hcc : cur ∈ s2.closedL
    · have := idxOf_lt_length s2.closedL cur hcc
      rw [if_pos hcc]
      omega
    · rw [if_neg hcc]

/-- C10: the v5 search terminates on every finite terrain grid and every
start/goal pair — the frontier loop performs only finitely many pops (the
chosen fuel, strictly above the loop measure, is never exhausted), and the
predecessor map is acyclic with every chain reaching the start, so the
path-reconstruction loop halts (`stuck` is unreachable). -/
theorem astarViaRamps_terminates :
    ∀ (tm : TerrainMap) (start goal : Pos) (clusters : List Pos) (stp : ℕ)
      (sels : ℕ → ℕ),
      ∃ r, astarViaRamps tm start goal clusters stp sels = some r ∧
        r ≠ AStarRes.stuck :=
  fun tm start goal clusters stp sels =>
    astarViaRamps_some_not_stuck tm start goal clusters stp sels

lemma segCostV5_isSome (tm : TerrainMap) (clusters : List Pos) (a b : Pos) :
    (segCostV5 tm clusters a b).isSome ↔
      (checkLineValid tm a.1 a.2 b.1 b.2).isSome := by
  rw [segCostV5]
  cases h : checkLineValid tm a.1 a.2 b.1 b.2 <;> simp [h]

/-- C1 (amended): every consecutive pair of a path returned by
`astar_via_ramps` passes `check_line_valid`, EXCEPT possibly the final
pair — the goal is appended to the reconstruction without validating the
segment from the accepted node to it. -/
theorem astarViaRamps_path_valid :
    ∀ (tm : TerrainMap) (start goal : Pos) (clusters : List Pos) (stp : ℕ)
      (sels : ℕ → ℕ) (p : List Pos),
      astarViaRamps tm start goal clusters stp sels = some (AStarRes.found p) →
      List.Chain' (fun a b => (checkLineValid tm a.1 a.2 b.1 b.2).isSome)
        p.dropLast := by
  intro tm start goal clusters stp sels p h
  have hinv := initState_inv (cfgV5 tm clusters stp goal) start (euclid start goal)
  rcases astarLoop_result (cfgV5 tm clusters stp goal) start sels _ 0 _ _ hinv h
    with h1 | ⟨s2, cur, hinv2, hok, hch, hg, hrec⟩
  · cases h1
  · obtain ⟨chain, hp, hcf⟩ := reconstruct_found_chain s2.cameFrom
      (s2.closedL.length + 1) cur ((cfgV5 tm clusters stp goal).recInit cur) p
      hrec.symm
    have hrecinit : (cfgV5 tm clusters stp goal).recInit cur = [goal, cur] := rfl
    rw [hrecinit] at hp
    subst hp
    have h1 : ([goal, cur] ++ chain) = goal :: (cur :: chain) := rfl
    rw [h1]
    have h2 : (goal :: (cur :: chain)).reverse = (cur :: chain).reverse ++ [goal] := by
      simp
    rw [h2, List.dropLast_concat, List.chain'_reverse]
    have hedges := chainFrom_edges s2.cameFrom
      (fun pp nn => ((cfgV5 tm clusters stp goal).segCost pp nn).isSome)
      (fun n pp hl => hinv2.cameEdge n pp hl) chain cur hcf
    refine hedges.imp ?_
    intro a b hab
    exact (segCostV5_isSome tm clusters b a).1 hab

/-- C7: when the v5 search succeeds on in-bounds start/goal markers with a
positive step, the returned path is non-empty, lies within the grid
bounds, starts exactly at the start centroid, and its last element (the
goal itself) is within the goal-proximity radius `2*step` of the end
centroid. -/
theorem astarViaRamps_endpoints :
    ∀ (tm : TerrainMap) (start goal : Pos) (clusters : List Pos) (stp : ℕ)
      (sels : ℕ → ℕ) (p : List Pos),
      posInB tm.width tm.height start → posInB tm.width tm.height goal →
      0 < stp →
      astarViaRamps tm start goal clusters stp sels = some (AStarRes.found p) →
      p ≠ [] ∧ (∀ q ∈ p, posInB tm.width tm.height q) ∧
      p.head? = some start ∧
      ∃ l, p.getLast? = some l ∧
        (l.1 - goal.1) ^ 2 + (l.2 - goal.2) ^ 2 < ((2 * stp : ℕ) : ℤ) ^ 2 := by
  intro tm start goal clusters stp sels p hstart hgoal hstp h
  have hinv := initState_inv (cfgV5 tm clusters stp goal) start (euclid start goal)
  rcases astarLoop_result (cfgV5 tm clusters stp goal) start sels _ 0 _ _ hinv h
    with h1 | ⟨s2, cur, hinv2, hok, hch, hg, hrec⟩
  · cases h1
  · obtain ⟨chain, hp, hcf⟩ := reconstruct_found_chain s2.cameFrom
      (s2.closedL.length + 1) cur ((cfgV5 tm clusters stp goal).recInit cur) p
      hrec.symm
    have hrecinit : (cfgV5 tm clusters stp goal).recInit cur = [goal, cur] := rfl
    rw [hrecinit] at hp
    have hp' : p = (goal :: cur :: chain).reverse := hp
    have hcw : (cfgV5 tm clusters stp goal).width = tm.width := rfl
    have hchh : (cfgV5 tm clusters stp goal).height = tm.height := rfl
    have hokB : ∀ q : Pos, (q = start ∨ posInB tm.width tm.height q) →
        posInB tm.width tm.height q := by
      rintro q (rfl | hq)
      · exact hstart
      · exact hq
    refine ⟨?_, ?_, ?_, goal, ?_, ?_⟩
    · rw [hp']
      simp
    · intro q hq
      rw [hp', List.mem_reverse] at hq
      rcases List.mem_cons.1 hq with rfl | hq2
      · exact hgoal
      · rcases List.mem_cons.1 hq2 with rfl | hq3
        · exact hokB q (by rw [← hcw, ← hchh]; exact hok)
        · refine hokB q ?_
          rw [← hcw, ← hchh]
          exact chainFrom_mem s2.cameFrom _
            (fun n pp hl => (hinv2.cameOk n pp hl).1) chain cur hcf q hq3
    · rw [hp', List.head?_reverse, List.getLast?_cons_cons]
      exact chainFrom_getLast s2.cameFrom start hinv2.cameChain chain cur hcf hch
    · rw [hp', List.getLast?_reverse]
      rfl
    · have hpos : (0 : ℤ) < ((2 * stp : ℕ) : ℤ) := by
        have : 0 < 2 * stp := by omega
        exact_mod_cast this
      have := pow_pos hpos 2
      simpa using this

/-- C9: closed nodes are frozen — from any state onward, a closed position
stays closed, is never closed (expanded) again, and its `g_score` and
`came_from` records are never modified for the remainder of the run. -/
theorem closedNodes_frozen :
    ∀ (cfg : SearchCfg) (sels : ℕ → ℕ) (n k : ℕ) (s : SearchState) (pos : Pos),
      pos ∈ s.closedL →
      pos ∈ (loopState cfg sels n k s).closedL ∧
      (∃ ext, (loopState cfg sels n k s).closedL = s.closedL ++ ext ∧ pos ∉ ext) ∧
      look (loopState cfg sels n k s).gScore pos = look s.gScore pos ∧
      look (loopState cfg sels n k s).cameFrom pos = look s.cameFrom pos := by
  intro cfg sels n
  induction n with
  | zero =>
    intro k s pos hpos
    exact ⟨hpos, ⟨[], by rw [show loopState cfg sels 0 k s = s from rfl]; simp,
      by simp⟩, rfl, rfl⟩
  | succ n ih =>
    intro k s pos hpos
    rw [loopState]
    cases hstep : astarStep cfg (sels k) s with
    | done r =>
      exact ⟨hpos, ⟨[], by simp, by simp⟩, rfl, rfl⟩
    | cont s2 =>
      have h1 := astarStep_cont_freeze cfg (sels k) s s2 pos hstep hpos
      rcases h1 with ⟨⟨e1, he1, hne1⟩, hg1, hc1⟩
      have hpos2 : pos ∈ s2.closedL := by
        rw [he1]
        exact List.mem_append_left _ hpos
      rcases ih (k + 1) s2 pos hpos2 with ⟨hm, ⟨e2, he2, hne2⟩, hg2, hc2⟩
      refine ⟨hm, ⟨e1 ++ e2, ?_, ?_⟩, hg2.trans hg1, hc2.trans hc1⟩
      · rw [he2, he1, List.append_assoc]
      · intro hmem
        rcases List.mem_append.1 hmem with hh | hh
        · exact hne1 hh
        · exact hne2 hh

/-- C6: failure is always signalled explicitly — a grid with no `Start`
(respectively no `End`) pixel yields an undefined (`None`) marker centre
and the run reports the missing marker without attempting any search; and
the capped v2 search either returns the explicit not-found value or a
non-empty path, never an empty or truncated waypoint list. -/
theorem failure_signalling :
    (∀ (g : PixelGrid) (sels : ℕ → ℕ), pointsOf g START = [] →
      centroid (pointsOf g START) = none ∧
      mainV5 g sels = RunOutcome.missingMarker) ∧
    (∀ (g : PixelGrid) (sels : ℕ → ℕ), pointsOf g END = [] →
      centroid (pointsOf g END) = none ∧
      mainV5 g sels = RunOutcome.missingMarker) ∧
    (∀ (cm : CostMap) (start goal : Pos) (stp : ℕ) (sels : ℕ → ℕ),
      astarPathfindV2 cm start goal stp sels = AStarRes.noPath ∨
      ∃ p, astarPathfindV2 cm start goal stp sels = AStarRes.found p ∧ p ≠ []) := by
  refine ⟨?_, ?_, ?_⟩
  · intro g sels hs
    refine ⟨by rw [hs]; rfl, ?_⟩
    rw [mainV5, hs]
    rfl
  · intro g sels he
    have hen : centroid (pointsOf g END) = none := by rw [he]; rfl
    refine ⟨hen, ?_⟩
    rw [mainV5, hen]
    cases centroid (pointsOf g START) <;> rfl
  · intro cm start goal stp sels
    have hinv := initState_inv (cfgV2 cm stp goal) start 0
    rw [astarPathfindV2]
    cases hres : astarLoop (cfgV2 cm stp goal) sels 500000 0 (initState start 0) with
    | none => exact Or.inl rfl
    | some r =>
      rcases astarLoop_result (cfgV2 cm stp goal) start sels _ 0 _ r hinv hres
        with h1 | ⟨s2, cur, hinv2, _, _, _, hrec⟩
      · rw [h1]
        exact Or.inl rfl
      · cases r with
        | noPath => exact Or.inl rfl
        | stuck =>
          exfalso
          refine reconstruct_not_stuck s2.cameFrom s2.closedL hinv2.cameClosed
            hinv2.cameRank (s2.closedL.length + 1) cur
            ((cfgV2 cm stp goal).recInit cur) ?_ hrec.symm
          by_cases hcc : cur ∈ s2.closedL
          · have := idxOf_lt_length s2.closedL cur hcc
            rw [if_pos hcc]
            omega
          · rw [if_neg hcc]
        | found p =>
          refine Or.inr ⟨p, rfl, ?_⟩
          exact reconstruct_found_ne_nil s2.cameFrom (s2.closedL.length + 1) cur
            ((cfgV2 cm stp goal).recInit cur) p (by simp [cfgV2]) hrec.symm

/-- A 3×1 grid `SAND, ABYSS, SAND`: the start is within the
goal-proximity radius of the goal, but the straight segment between them
crosses the abyss. -/
def tmC1 : TerrainMap := ⟨3, 1, fun x _ => if x = 1 then ABYSS else SAND⟩

/-- On `tmC1` the very first pop is already goal-near, so the search
returns `[start, goal]` without ever validating the segment to the goal. -/
lemma astar_run_tmC1 :
    astarViaRamps tmC1 ((0 : ℤ), (0 : ℤ)) ((2 : ℤ), (0 : ℤ)) [] 6 (fun _ => 0) =
      some (AStarRes.found [((0 : ℤ), (0 : ℤ)), ((2 : ℤ), (0 : ℤ))]) := by
  rfl

/-- A 1×1 all-`SAND` grid for the endpoint witness. -/
def tmW7 : TerrainMap := ⟨1, 1, fun _ _ => SAND⟩

lemma astar_run_tmW7 :
    astarViaRamps tmW7 ((0 : ℤ), (0 : ℤ)) ((0 : ℤ), (0 : ℤ)) [] 6 (fun _ => 0) =
      some (AStarRes.found [((0 : ℤ), (0 : ℤ)), ((0 : ℤ), (0 : ℤ))]) := by
  rfl

/-- C1 counterexample: on `tmC1` the search succeeds with the path
`[(0,0), (2,0)]`, whose (final) consecutive pair fails
`check_line_valid` — the segment crosses the `ABYSS` tile at (1,0), so
not every consecutive pair of a returned path is Transition-Policy
valid. -/
theorem astar_final_pair_invalid :
    astarViaRamps tmC1 ((0 : ℤ), (0 : ℤ)) ((2 : ℤ), (0 : ℤ)) [] 6 (fun _ => 0) =
      some (AStarRes.found [((0 : ℤ), (0 : ℤ)), ((2 : ℤ), (0 : ℤ))]) ∧
    (checkLineValid tmC1 0 0 2 0).isSome = false :=
  ⟨astar_run_tmC1, by decide⟩

/-- Witness for C1 (amended) at the concrete run on `tmC1`. -/
theorem astarViaRamps_path_valid_witness :
    List.Chain' (fun a b => (checkLineValid tmC1 a.1 a.2 b.1 b.2).isSome)
      ([((0 : ℤ), (0 : ℤ)), ((2 : ℤ), (0 : ℤ))] : List Pos).dropLast :=
  astarViaRamps_path_valid tmC1 ((0 : ℤ), (0 : ℤ)) ((2 : ℤ), (0 : ℤ)) [] 6
    (fun _ => 0) _ astar_run_tmC1

/-- Witness for C7 at the concrete run on `tmW7`. -/
theorem astarViaRamps_endpoints_witness :
    ([((0 : ℤ), (0 : ℤ)), ((0 : ℤ), (0 : ℤ))] : List Pos) ≠ [] ∧
    (∀ q ∈ ([((0 : ℤ), (0 : ℤ)), ((0 : ℤ), (0 : ℤ))] : List Pos),
      posInB tmW7.width tmW7.height q) ∧
    ([((0 : ℤ), (0 : ℤ)), ((0 : ℤ), (0 : ℤ))] : List Pos).head? =
      some ((0 : ℤ), (0 : ℤ)) ∧
    ∃ l, ([((0 : ℤ), (0 : ℤ)), ((0 : ℤ), (0 : ℤ))] : List Pos).getLast? = some l ∧
      (l.1 - ((0 : ℤ), (0 : ℤ)).1) ^ 2 + (l.2 - ((0 : ℤ), (0 : ℤ)).2) ^ 2 <
        ((2 * 6 : ℕ) : ℤ) ^ 2 :=
  astarViaRamps_endpoints tmW7 ((0 : ℤ), (0 : ℤ)) ((0 : ℤ), (0 : ℤ)) [] 6
    (fun _ => 0) [((0 : ℤ), (0 : ℤ)), ((0 : ℤ), (0 : ℤ))]
    (by decide) (by decide) (by decide) astar_run_tmW7

/-- A trivial configuration and a state with one closed node, for the
freeze witness. -/
def cfgW9 : SearchCfg :=
  ⟨1, 1, 6, ((0 : ℤ), (0 : ℤ)), fun _ _ => none, fun c => [c]⟩

def sW9 : SearchState := ⟨[], [], [], [((0 : ℤ), (0 : ℤ))], 0⟩

/-- Witness for C9 at a concrete state with a closed node. -/
theorem closedNodes_frozen_witness :
    ((0 : ℤ), (0 : ℤ)) ∈ sW9.closedL ∧
    ((0 : ℤ), (0 : ℤ)) ∈ (loopState cfgW9 (fun _ => 0) 3 0 sW9).closedL ∧
    (∃ ext, (loopState cfgW9 (fun _ => 0) 3 0 sW9).closedL = sW9.closedL ++ ext ∧
      ((0 : ℤ), (0 : ℤ)) ∉ ext) ∧
    look (loopState cfgW9 (fun _ => 0) 3 0 sW9).gScore ((0 : ℤ), (0 : ℤ)) =
      look sW9.gScore ((0 : ℤ), (0 : ℤ)) ∧
    look (loopState cfgW9 (fun _ => 0) 3 0 sW9).cameFrom ((0 : ℤ), (0 : ℤ)) =
      look sW9.cameFrom ((0 : ℤ), (0 : ℤ)) :=
  ⟨by decide,
    (closedNodes_frozen cfgW9 (fun _ => 0) 3 0 sW9 ((0 : ℤ), (0 : ℤ)) (by decide)).1,
    (closedNodes_frozen cfgW9 (fun _ => 0) 3 0 sW9 ((0 : ℤ), (0 : ℤ)) (by decide)).2.1,
    (closedNodes_frozen cfgW9 (fun _ => 0) 3 0 sW9 ((0 : ℤ), (0 : ℤ)) (by decide)).2.2.1,
    (closedNodes_frozen cfgW9 (fun _ => 0) 3 0 sW9 ((0 : ℤ), (0 : ℤ)) (by decide)).2.2.2⟩

/-- A 1×1 all-black image: no pixel classifies as `START`. -/
def pgBlack : PixelGrid := ⟨1, 1, fun _ _ => (0, 0, 0)⟩

/-- Witness for C6: the all-black image reports the missing marker, and a
concrete capped v2 search returns the explicit outcome. -/
theorem failure_signalling_witness :
    (centroid (pointsOf pgBlack START) = none ∧
      mainV5 pgBlack (fun _ => 0) = RunOutcome.missingMarker) ∧
    (astarPathfindV2 ⟨1, 1, fun _ _ => 1⟩ ((0 : ℤ), (0 : ℤ)) ((0 : ℤ), (0 : ℤ)) 6
        (fun _ => 0) = AStarRes.noPath ∨
      ∃ p, astarPathfindV2 ⟨1, 1, fun _ _ => 1⟩ ((0 : ℤ), (0 : ℤ))
          ((0 : ℤ), (0 : ℤ)) 6 (fun _ => 0) = AStarRes.found p ∧ p ≠ []) :=
  ⟨failure_signalling.1 pgBlack (fun _ => 0) (by rfl),
    failure_signalling.2.2 ⟨1, 1, fun _ _ => 1⟩ ((0 : ℤ), (0 : ℤ))
      ((0 : ℤ), (0 : ℤ)) 6 (fun _ => 0)⟩

/-- C5 counterexample: the claim also covers the classifier of
`pathfinder.py` (lines 54–88), but that variant returns `'UNKNOWN'`
for the concrete pixel (255, 0, 255) — an `'unknown'` category does leak
out of that classifier. -/
theorem classifyPixelV1_unknown_leak :
    classifyPixelV1 255 0 255 = TerrainV1.UNKNOWN := by
  decide

/-- C5 (amended): the `pathfinder_v5.py`/`pathfinder_v8.py`/
`pathfinder_v9.py` classifier `classify_pixel` is a total deterministic
function on RGB triples agreeing everywhere with the claimed decision order
(Start, End, Ramp, Abyss, then brightness bucketing), and by its result type
it only ever produces one of the six terrain categories. -/
theorem classifyPixel_decisionOrder :
    ∀ r g b : ℤ, classifyPixel r g b = classifyDecisionOrder r g b := by
  intro r g b
  rfl
